import Mathlib

/-!
Verification of the goda-cluster repository: the query-language tokenizer,
parser and canonical printer (`internal/pkgset/ast`), and the directory
clustering code (`internal/pkgtree/dircluster.go`).

The `internal/pkgset/ast` implementation file is not part of the excerpt;
only its test file (`ast_test.go`) is.  The tokenizer, AST, printer and
parser below are therefore modelled from the specification's §3 (data
model), §4.1 (tokenizer rules), §4.2 (grammar) and §4.3 (printer table),
pinned down by the literal token/canonical-form corpus of `ast_test.go`,
which is in the excerpt and is checked against the model verbatim below.

`dircluster.go` is in the excerpt and its functions are translated
directly.
-/

namespace Goda

/-! ## Tokens.  Kinds as in ast_test.go: TPackage, TOp, TLeftParen,
TRightParen, TComma, TSelector, TFunc, TAssign, TSemicolon. -/

inductive TokenKind where
  | TPackage | TOp | TLeftParen | TRightParen | TComma
  | TSelector | TFunc | TAssign | TSemicolon
deriving DecidableEq, Repr

structure Token where
  kind : TokenKind
  text : List Char
deriving DecidableEq, Repr

/-- Whitespace characters: token separators (spec §4.1). -/
def isWS (c : Char) : Bool :=
  c = ' ' || c = '\t' || c = '\n' || c = '\r'

/-- The four single-character punctuation tokens (spec §4.1). -/
def isPunctChar (c : Char) : Bool :=
  c = '(' || c = ')' || c = ',' || c = ';'

/-- Characters that end a bare word or a selector run.  A `-` does not:
the corpus has `github.com/pratikiran/goda-cluster` as one `Package`
token, while `y+q` splits into three tokens, so `+` breaks a word and
`-` does not; a `-` acts as an operator only where a token starts. -/
def isBreakChar (c : Char) : Bool :=
  isWS c || isPunctChar c || c = ':' || c = '+'

def isWordChar (c : Char) : Bool :=
  !(isBreakChar c)

/-- Modelled from the spec: the tokenizer of `internal/pkgset/ast`
(`Tokenize`), whose implementation file is missing from the excerpt.
Rules from spec §4.1, applied left to right; the fuel argument only
bounds the recursion and `tok` below supplies enough of it.
- whitespace is skipped;
- `(`, `)`, `,`, `;` are single-character tokens;
- `:` followed by `=` is the `Assign` token, checked before selectors;
- `:` otherwise starts a `Selector`: an optional sign (`+`/`-`) plus a
  run of non-break characters, the leading `:` excluded from the text;
- a `+` or `-` at a token start is a `Func` token when immediately
  followed by `(` (the printer's prefix rendering of set operators),
  otherwise an `Op` token;
- any other character starts a bare word, a maximal run of non-break
  characters; the word is a `Func` token when the immediately next
  character is `(`, otherwise a `Package` token.
The rules cover every character, so no input fails to tokenize. -/
def tokF : Nat → List Char → List Token
  | 0, _ => []
  | fuel + 1, cs =>
    match cs with
    | [] => []
    | c :: rest =>
      if isWS c then tokF fuel rest
      else if c = '(' then ⟨.TLeftParen, ['(']⟩ :: tokF fuel rest
      else if c = ')' then ⟨.TRightParen, [')']⟩ :: tokF fuel rest
      else if c = ',' then ⟨.TComma, [',']⟩ :: tokF fuel rest
      else if c = ';' then ⟨.TSemicolon, [';']⟩ :: tokF fuel rest
      else if c = ':' then
        match rest with
        | [] => [⟨.TSelector, []⟩]
        | d :: rest2 =>
          if d = '=' then ⟨.TAssign, [':', '=']⟩ :: tokF fuel rest2
          else if d = '+' || d = '-' then
            ⟨.TSelector, d :: rest2.takeWhile isWordChar⟩ ::
              tokF fuel (rest2.dropWhile isWordChar)
          else
            ⟨.TSelector, (d :: rest2).takeWhile isWordChar⟩ ::
              tokF fuel ((d :: rest2).dropWhile isWordChar)
      else if c = '+' || c = '-' then
        if rest.head? = some '(' then ⟨.TFunc, [c]⟩ :: tokF fuel rest
        else ⟨.TOp, [c]⟩ :: tokF fuel rest
      else
        if (rest.dropWhile isWordChar).head? = some '(' then
          ⟨.TFunc, c :: rest.takeWhile isWordChar⟩ ::
            tokF fuel (rest.dropWhile isWordChar)
        else
          ⟨.TPackage, c :: rest.takeWhile isWordChar⟩ ::
            tokF fuel (rest.dropWhile isWordChar)

/-- Modelled from the spec: `Tokenize` on a character list, with enough
fuel for the whole input (each step consumes at least one character). -/
def tok (cs : List Char) : List Token :=
  tokF (cs.length + 1) cs

/-- Modelled from the spec: `Tokenize(input string)`.  It never returns
an error: the word rule accepts any character the other rules do not. -/
def Tokenize (s : String) : List Token :=
  tok s.data

/-! ## The abstract syntax (spec §3) and the canonical printer (spec §4.3). -/

/-- Modelled from the spec: the closed expression variant set of
`internal/pkgset/ast` (spec §3), whose implementation file is missing
from the excerpt. -/
inductive Expr where
  | PackageRef (pattern : List Char)
  | Selected (base : Expr) (tags : List (List Char))
  | BinaryOp (op : Char) (left : Expr) (right : Expr)
  | Call (name : List Char) (args : List Expr)
  | Assignment (name : List Char) (value : Expr)
  | Program (statements : List Expr)

/-- Selected renders as the base followed by `":"+tag` for each tag in
order, no separators (spec §4.3). -/
def printTags : List (List Char) → List Char
  | [] => []
  | t :: ts => ':' :: t ++ printTags ts

mutual

/-- Modelled from the spec: the canonical printer (`Expr.String()` in
the missing ast.go), rendering row by row from the spec §4.3 table.
A `BinaryOp` prints in prefix form `op ++ "(" ++ l ++ ", " ++ r ++ ")"`;
`Call` prints `name ++ "(" ++ args joined by ", " ++ ")"`; `Assignment`
prints `name ++ " := " ++ value`; `Program` joins statements by `"; "`. -/
def printE : Expr → List Char
  | .PackageRef p => p
  | .Selected b tags => printE b ++ printTags tags
  | .BinaryOp op l r => op :: '(' :: (printE l ++ ',' :: ' ' :: printE r ++ [')'])
  | .Call n args => n ++ '(' :: (printArgs args ++ [')'])
  | .Assignment n v => n ++ ' ' :: ':' :: '=' :: ' ' :: printE v
  | .Program ss => printStmts ss

/-- Call arguments joined by `", "` (spec §4.3). -/
def printArgs : List Expr → List Char
  | [] => []
  | [e] => printE e
  | e :: e2 :: es => printE e ++ ',' :: ' ' :: printArgs (e2 :: es)

/-- Program statements joined by `"; "` (spec §4.3). -/
def printStmts : List Expr → List Char
  | [] => []
  | [e] => printE e
  | e :: e2 :: es => printE e ++ ';' :: ' ' :: printStmts (e2 :: es)

end

/-- Modelled from the spec: `Print`, the canonical rendering as a string. -/
def Print (e : Expr) : String :=
  String.mk (printE e)

/-! ## The parser (spec §4.2).

Grammar, precedence lowest to highest:
```text
Program    := Statement (";" Statement)*
Statement  := (Package Assign)? Expr
Expr       := Chain Chain*           -- bare juxtaposition collects into
                                     -- an unnamed call, printed "(a, b)"
Chain      := Term (("+"|"-") Term)* -- left-associative, same precedence
Term       := Primary Selector*      -- selector chain binds tightly
Primary    := Package
            | Func "(" (Expr ("," Expr)*)? ")"
            | "(" Expr ("," Expr)* ")"
```
The corpus forces the two productions the spec's informal grammar leaves
implicit: two bare words parse to the unnamed call printed `"(a, b)"`,
and a parenthesized comma list is accepted so that this canonical form
re-parses (idempotence, spec §4.3/§8).  A parenthesized single
expression is the expression itself. -/

/-- Parser intermediate result: a single expression or a list (argument
lists, statement lists). -/
inductive PRes where
  | one (e : Expr)
  | many (es : List Expr)

/-- The sub-parser being run: primary, argument list, term, operator
chain (with accumulator), expression (juxtaposition, with accumulator),
statement, or program. -/
inductive PJob where
  | prim
  | args
  | term
  | chain
  | chainRest (acc : Expr)
  | expr
  | exprRest (acc : List Expr)
  | stmt
  | prog

/-- A selector chain: consecutive `Selector` tokens bind to the nearest
preceding primary, appended in order (spec §4.2). -/
def parseSelectors : List Token → List (List Char) × List Token
  | ⟨.TSelector, t⟩ :: rest =>
    match parseSelectors rest with
    | (tags, r) => (t :: tags, r)
  | ts => ([], ts)

/-- Does the next token start a `Term`?  Used by the juxtaposition loop. -/
def startsTerm : List Token → Bool
  | ⟨.TPackage, _⟩ :: _ => true
  | ⟨.TFunc, _⟩ :: _ => true
  | ⟨.TLeftParen, _⟩ :: _ => true
  | _ => false

/-- Modelled from the spec: the recursive-descent parser of
`internal/pkgset/ast` (missing from the excerpt), one fueled function
over the sub-parser jobs; structural errors produce a parse error.
`Parse` below supplies enough fuel for any input. -/
def parseF : Nat → PJob → List Token → Except String (PRes × List Token)
  | 0, _, _ => .error "parse: out of fuel"
  | fuel + 1, job, ts =>
    match job with
    | .prim =>
      match ts with
      | ⟨.TPackage, w⟩ :: rest => .ok (.one (.PackageRef w), rest)
      | ⟨.TFunc, f⟩ :: ⟨.TLeftParen, _⟩ :: ⟨.TRightParen, _⟩ :: rest =>
        .ok (.one (.Call f []), rest)
      | ⟨.TFunc, f⟩ :: ⟨.TLeftParen, _⟩ :: rest =>
        match parseF fuel .args rest with
        | .ok (.many as, ⟨.TRightParen, _⟩ :: rest2) => .ok (.one (.Call f as), rest2)
        | .ok _ => .error "parse: expected right parenthesis after arguments"
        | .error msg => .error msg
      | ⟨.TLeftParen, _⟩ :: rest =>
        match parseF fuel .args rest with
        | .ok (.many [e], ⟨.TRightParen, _⟩ :: rest2) => .ok (.one e, rest2)
        | .ok (.many as, ⟨.TRightParen, _⟩ :: rest2) => .ok (.one (.Call [] as), rest2)
        | .ok _ => .error "parse: expected right parenthesis"
        | .error msg => .error msg
      | _ => .error "parse: expected package, function call or parenthesized expression"
    | .args =>
      match parseF fuel .expr ts with
      | .ok (.one e, ⟨.TComma, _⟩ :: rest2) =>
        match parseF fuel .args rest2 with
        | .ok (.many es, rest3) => .ok (.many (e :: es), rest3)
        | .ok _ => .error "parse: internal"
        | .error msg => .error msg
      | .ok (.one e, rest) => .ok (.many [e], rest)
      | .ok _ => .error "parse: internal"
      | .error msg => .error msg
    | .term =>
      match parseF fuel .prim ts with
      | .ok (.one base, rest) =>
        match parseSelectors rest with
        | ([], _) => .ok (.one base, rest)
        | (tags, rest2) => .ok (.one (.Selected base tags), rest2)
      | .ok _ => .error "parse: internal"
      | .error msg => .error msg
    | .chain =>
      match parseF fuel .term ts with
      | .ok (.one e, rest) => parseF fuel (.chainRest e) rest
      | .ok _ => .error "parse: internal"
      | .error msg => .error msg
    | .chainRest acc =>
      match ts with
      | ⟨.TOp, [c]⟩ :: rest =>
        if c = '+' || c = '-' then
          match parseF fuel .term rest with
          | .ok (.one e2, rest2) => parseF fuel (.chainRest (.BinaryOp c acc e2)) rest2
          | .ok _ => .error "parse: internal"
          | .error msg => .error msg
        else .error "parse: bad operator token"
      | ⟨.TOp, _⟩ :: _ => .error "parse: bad operator token"
      | _ => .ok (.one acc, ts)
    | .expr =>
      match parseF fuel .chain ts with
      | .ok (.one e, rest) => parseF fuel (.exprRest [e]) rest
      | .ok _ => .error "parse: internal"
      | .error msg => .error msg
    | .exprRest acc =>
      if startsTerm ts then
        match parseF fuel .chain ts with
        | .ok (.one e, rest) => parseF fuel (.exprRest (acc ++ [e])) rest
        | .ok _ => .error "parse: internal"
        | .error msg => .error msg
      else
        match acc with
        | [e] => .ok (.one e, ts)
        | _ => .ok (.one (.Call [] acc), ts)
    | .stmt =>
      match ts with
      | ⟨.TPackage, n⟩ :: ⟨.TAssign, _⟩ :: rest =>
        match parseF fuel .expr rest with
        | .ok (.one v, rest2) => .ok (.one (.Assignment n v), rest2)
        | .ok _ => .error "parse: internal"
        | .error msg => .error msg
      | _ => parseF fuel .expr ts
    | .prog =>
      match parseF fuel .stmt ts with
      | .ok (.one s, ⟨.TSemicolon, _⟩ :: rest2) =>
        match parseF fuel .prog rest2 with
        | .ok (.many ss, rest3) => .ok (.many (s :: ss), rest3)
        | .ok _ => .error "parse: internal"
        | .error msg => .error msg
      | .ok (.one s, rest) => .ok (.many [s], rest)
      | .ok _ => .error "parse: internal"
      | .error msg => .error msg

/-- Modelled from the spec: `Parse(tokens)` (spec §4.2).  An empty token
sequence yields a nil program (`none`) and no error; a non-empty one is
parsed as a whole program, a single statement standing for itself, and
any leftover token is a parse error (never a silent truncation). -/
def Parse (ts : List Token) : Except String (Option Expr) :=
  match ts with
  | [] => .ok none
  | _ =>
    match parseF (8 * ts.length + 16) .prog ts with
    | .ok (.many [e], []) => .ok (some e)
    | .ok (.many ss, []) => .ok (some (.Program ss))
    | .ok (_, _ :: _) => .error "parse: unexpected token after program"
    | .ok (.one _, []) => .error "parse: internal"
    | .error msg => .error msg

/-- The canonical form of a query string: tokenize, parse, print. -/
def canonical (s : String) : Except String String :=
  match Parse (Tokenize s) with
  | .ok none => .ok ""
  | .ok (some e) => .ok (Print e)
  | .error msg => .error msg

/-! ## internal/pkgtree/dircluster.go, translated from the source. -/

/-- A graph node; only its `ID` field is read by dircluster.go. -/
structure Node where
  ID : String

/-- `pkggraph.Graph`: the `Sorted` node list, as read by `GetBasePackage`. -/
structure Graph where
  Sorted : List Node

/-- `pkgtree.Package`; dircluster.go reads `pkg.GraphNode.ID`. -/
structure Package where
  GraphNode : Node

/-- `pkgtree.Module`: its package list, as iterated by `ClusterByDirectory`. -/
structure Module where
  Pkgs : List Package

/-- `pkgtree.Repo`: its modules and its direct packages. -/
structure Repo where
  Modules : List Module
  Pkgs : List Package

/-- `pkgtree.Tree`: its repos, as iterated by `ClusterByDirectory`. -/
structure Tree where
  Repos : List Repo

/-- `DirCluster` from dircluster.go.  The Go struct's `childrenMap`,
`sortedChildren` and `Children` jointly hold the children keyed by name
in insertion order; the model folds them into one association list.
The Go `Parent` back-pointer is dropped: the parent/child path relation
is stated relationally in the theorems. -/
inductive DirCluster where
  | mk (Path : String) (Depth : Nat)
       (Children : List (String × DirCluster)) (Packages : List Package)

def DirCluster.Path : DirCluster → String
  | ⟨p, _, _, _⟩ => p

def DirCluster.Depth : DirCluster → Nat
  | ⟨_, d, _, _⟩ => d

def DirCluster.Children : DirCluster → List (String × DirCluster)
  | ⟨_, _, ch, _⟩ => ch

def DirCluster.Packages : DirCluster → List Package
  | ⟨_, _, _, pk⟩ => pk

/-- `NewDirCluster` from dircluster.go (the dropped parent pointer aside). -/
def NewDirCluster (path : String) (depth : Nat) : DirCluster :=
  ⟨path, depth, [], []⟩

/-- `(*DirCluster).AddPackage`: append to `Packages`. -/
def DirCluster.AddPackage : DirCluster → Package → DirCluster
  | ⟨p, d, ch, pk⟩, pkg => ⟨p, d, ch, pk ++ [pkg]⟩

/-- `childrenMap` lookup inside `GetOrCreateChild`. -/
def lookupChild : List (String × DirCluster) → String → Option DirCluster
  | [], _ => none
  | (n, c) :: rest, name => if n = name then some c else lookupChild rest name

/-- Store an updated child under its name, appending a fresh entry when
the name is new — the append mirrors `GetOrCreateChild` extending
`sortedChildren`/`Children` at the end. -/
def setChild : List (String × DirCluster) → String → DirCluster → List (String × DirCluster)
  | [], name, c => [(name, c)]
  | (n, c0) :: rest, name, c =>
    if n = name then (name, c) :: rest else (n, c0) :: setChild rest name c

/-- The child path rule of `GetOrCreateChild`: the parent's path extended
by `"/"` and the child name, or the bare name when the parent is the
root (empty path). -/
def childPathOf (dc : DirCluster) (name : String) : String :=
  if dc.Path = "" then name else dc.Path ++ "/" ++ name

/-- The cluster-walk loop of `addPackageToCluster`: follow (creating on
demand, via `GetOrCreateChild`) one child per part, depth counting up
from 1, and add the package to the deepest cluster reached.  The Go
loop's `depth > maxDepth` break is kept verbatim. -/
def insertParts : DirCluster → List String → Nat → Int → Package → DirCluster
  | dc, [], _, _, pkg => dc.AddPackage pkg
  | dc, part :: restParts, depth, maxDepth, pkg =>
    if 0 < maxDepth ∧ maxDepth < (depth : Int) then dc.AddPackage pkg
    else
      let child :=
        match lookupChild dc.Children part with
        | some c => c
        | none => NewDirCluster (childPathOf dc part) depth
      let child2 := insertParts child restParts (depth + 1) maxDepth pkg
      match dc with
      | ⟨p, d, ch, pk⟩ => ⟨p, d, setChild ch part child2, pk⟩

/-- The relative-path normalization and depth truncation of
`addPackageToCluster`: reset an empty or unchanged relative path to the
full path, split on `/`, and cut the parts list to `maxDepth` when that
limit is positive and exceeded. -/
def clusterParts (pkgPath relIn : String) (maxDepth : Int) : List String :=
  let rel := if relIn = "" ∨ relIn = pkgPath then pkgPath else relIn
  let parts := rel.splitOn "/"
  if 0 < maxDepth ∧ maxDepth < (parts.length : Int) then parts.take maxDepth.toNat
  else parts

/-- `addPackageToCluster` from dircluster.go: strip the base-package
prefix when present, attach the base package itself to the root, and
walk the part list otherwise.  `strings.TrimPrefix` under the guard is
dropping `basePackage.length + 1` characters. -/
def addPackageToCluster (root : DirCluster) (pkg : Package)
    (basePackage : String) (maxDepth : Int) : DirCluster :=
  let pkgPath := pkg.GraphNode.ID
  if basePackage ≠ "" ∧ (basePackage ++ "/").isPrefixOf pkgPath then
    insertParts root
      (clusterParts pkgPath (pkgPath.drop (basePackage.length + 1)) maxDepth)
      1 maxDepth pkg
  else if pkgPath = basePackage then
    root.AddPackage pkg
  else
    insertParts root (clusterParts pkgPath pkgPath maxDepth) 1 maxDepth pkg

/-- Insertion into a name-sorted child list, for `(*DirCluster).Sort`. -/
def insChild (p : String × DirCluster) : List (String × DirCluster) → List (String × DirCluster)
  | [] => [p]
  | q :: rest => if p.1 ≤ q.1 then p :: q :: rest else q :: insChild p rest

/-- `sort.Strings(dc.sortedChildren)` followed by the rebuild of
`Children` from `childrenMap`: the association list sorted by name. -/
def sortPairs : List (String × DirCluster) → List (String × DirCluster)
  | [] => []
  | p :: rest => insChild p (sortPairs rest)

mutual

/-- `(*DirCluster).Sort`: sort children by name and recurse into them.
(The Go code sorts before recursing; sorting by names commutes with the
per-child recursion, so the model recurses first for termination.) -/
def sortDC : DirCluster → DirCluster
  | ⟨p, d, ch, pk⟩ => ⟨p, d, sortPairs (sortDCList ch), pk⟩

def sortDCList : List (String × DirCluster) → List (String × DirCluster)
  | [] => []
  | (n, c) :: rest => (n, sortDC c) :: sortDCList rest

end

/-- `ClusterByDirectory` from dircluster.go: an empty root at depth 0,
every package of every module of every repo added, then the repo's
direct packages, and the result sorted.  (The unused `lookup` table is
omitted, matching `_ = lookup`.) -/
def ClusterByDirectory (t : Tree) (basePackage : String) (maxDepth : Int) : DirCluster :=
  let root := NewDirCluster "" 0
  sortDC (t.Repos.foldl (fun acc repo =>
    let acc2 := repo.Modules.foldl
      (fun a m => m.Pkgs.foldl
        (fun a2 p => addPackageToCluster a2 p basePackage maxDepth) a) acc
    repo.Pkgs.foldl (fun a p => addPackageToCluster a p basePackage maxDepth) acc2) root)

/-- `longestCommonPrefix` on the character lists: heads agreeing are
kept, a mismatch or an exhausted side ends the scan — exactly Go's
index loop returning `a[:i]` at the first mismatch and `a[:minLen]`
otherwise. -/
def lcpChars : List Char → List Char → List Char
  | x :: xs, y :: ys => if x = y then x :: lcpChars xs ys else []
  | _, _ => []

/-- `longestCommonPrefix` from dircluster.go. -/
def longestCommonPrefix (a b : String) : String :=
  String.mk (lcpChars a.data b.data)

/-- Decidable prefix test on character lists, used to state what
`longestCommonPrefix` computes. -/
def prefB : List Char → List Char → Bool
  | [], _ => true
  | _ :: _, [] => false
  | a :: as, b :: bs => a = b && prefB as bs

/-- The shortest-ID scan of `GetBasePackage` (the first node of minimal
length wins, the initial candidate being `Sorted[0].ID`). -/
def shortestID (first : String) (nodes : List Node) : String :=
  nodes.foldl (fun acc n => if n.ID.length < acc.length then n.ID else acc) first

/-- The common-prefix fold of `GetBasePackage`, with Go's early break
once the running prefix is empty. -/
def commonOf : String → List Node → String
  | acc, [] => acc
  | acc, n :: rest =>
    let acc2 := longestCommonPrefix acc n.ID
    if acc2 = "" then acc2 else commonOf acc2 rest

/-- `strings.LastIndex(s, c)` for a single character, returning -1 when
absent. -/
def lastIndexC : List Char → Char → Int
  | [], _ => -1
  | a :: as, c =>
    let r := lastIndexC as c
    if r ≥ 0 then r + 1 else if a = c then 0 else -1

/-- `GetBasePackage` from dircluster.go. -/
def GetBasePackage (graph : Graph) : String :=
  match graph.Sorted with
  | [] => ""
  | first :: _ =>
    let base := shortestID first.ID graph.Sorted
    if graph.Sorted.length > 1 then
      let common := commonOf base (graph.Sorted.drop 1)
      let idx := lastIndexC common.data '/'
      let common2 := if idx > 0 then String.mk (common.data.take idx.toNat) else common
      if common2 ≠ "" then common2 else base
    else base

/-! ## Invariant predicates for the directory clusters (C10). -/

/-- The structural invariant of a directory-cluster tree: the depth
bound holds at every node, every child sits one level deeper than its
parent, and every child's path is the parent's path extended by `/` and
the child's name (the bare name under the empty root path), as
`GetOrCreateChild` constructs it. -/
inductive ClusterWF (maxD : Int) : DirCluster → Prop where
  | intro (p : String) (d : Nat) (ch : List (String × DirCluster)) (pk : List Package)
      (hd : (d : Int) ≤ maxD)
      (hdep : ∀ q ∈ ch, q.2.Depth = d + 1)
      (hpath : ∀ q ∈ ch, q.2.Path = childPathOf ⟨p, d, ch, pk⟩ q.1)
      (hrec : ∀ q ∈ ch, ClusterWF maxD q.2) :
      ClusterWF maxD ⟨p, d, ch, pk⟩

/-- `c` is a cluster of the tree rooted at `dc` (the root included). -/
inductive Subcluster : DirCluster → DirCluster → Prop where
  | refl (dc : DirCluster) : Subcluster dc dc
  | child (dc : DirCluster) (q : String × DirCluster) (c : DirCluster) :
      q ∈ dc.Children → Subcluster q.2 c → Subcluster dc c

/-! ## Word, tag and boundary predicates, used by the round-trip
theorems to characterize the token texts the tokenizer can produce. -/

/-- A package or function name as the word rule produces it: nonempty,
word characters only, and not starting with the sign `-` (a leading `+`
is excluded already by not being a word character). -/
def wordOKB (w : List Char) : Bool :=
  !(w.isEmpty) && w.all isWordChar && !(w.head? == some '-')

/-- A selector tag as the selector rule produces it: an optional leading
sign followed by word characters; a plain tag cannot start with `=`,
which would have tokenized as `Assign`. -/
def tagOKB : List Char → Bool
  | [] => true
  | c :: rest =>
    if c = '+' || c = '-' then rest.all isWordChar
    else !(c == '=') && isWordChar c && rest.all isWordChar

/-- Characters that can immediately follow a printed expression inside a
canonical rendering: end of input, `,` (argument separator), `;`
(statement separator), `)` (closing a call), or `:` (a selector). -/
def sepB : List Char → Bool
  | [] => true
  | c :: _ => c = ',' || c = ';' || c = ')' || c = ':'

/-- End of input or a break character next: where a word run stops. -/
def headBreak : List Char → Bool
  | [] => true
  | c :: _ => isBreakChar c

/-- The last token of a consumed span is never a left parenthesis: the
invariant behind "a trailing unmatched `(` always fails". -/
def lastNotLParen (l : List Token) : Prop :=
  ∀ tk : Token, l.getLast? = some tk → tk.kind ≠ .TLeftParen

/-! ## Well-formedness, canonical token lists, and normalization, for
the round-trip theorem (C1). -/

/-- A `Call` name as the parser can produce it: empty (the unnamed
grouping call), a bare sign (the prefix rendering of a set operator), or
a word. -/
def callNameOK (n : List Char) : Bool :=
  n.isEmpty || (n == ['+']) || (n == ['-']) || wordOKB n

/-- The texts the tokenizer can put in each token kind. -/
def tokenWF (tk : Token) : Bool :=
  match tk.kind with
  | .TPackage => wordOKB tk.text
  | .TFunc => wordOKB tk.text || (tk.text == ['+']) || (tk.text == ['-'])
  | .TSelector => tagOKB tk.text
  | _ => true

/-- Well-formed expressions: what `Parse` produces below the statement
level when fed tokenizer output. -/
inductive EWF : Expr → Prop where
  | pkg (w : List Char) : wordOKB w = true → EWF (.PackageRef w)
  | bin (op : Char) (l r : Expr) : (op = '+' ∨ op = '-') → EWF l → EWF r →
      EWF (.BinaryOp op l r)
  | call (n : List Char) (args : List Expr) :
      callNameOK n = true → (n = [] → 2 ≤ args.length) →
      (∀ a ∈ args, EWF a) → EWF (.Call n args)
  | sel (b : Expr) (tags : List (List Char)) :
      EWF b → tags ≠ [] → (∀ t ∈ tags, tagOKB t = true) →
      EWF (.Selected b tags)

/-- Well-formed statements: an expression or a top-level assignment. -/
inductive StmtWF : Expr → Prop where
  | expr (e : Expr) : EWF e → StmtWF e
  | assign (n : List Char) (v : Expr) : wordOKB n = true → EWF v →
      StmtWF (.Assignment n v)

/-- Well-formed parse results: a single statement, or a program of at
least two statements. -/
inductive TopWF : Expr → Prop where
  | single (e : Expr) : StmtWF e → TopWF e
  | program (ss : List Expr) : 2 ≤ ss.length → (∀ s ∈ ss, StmtWF s) →
      TopWF (.Program ss)

/-- The innermost non-`Selected` base of a selector tower. -/
def selBase : Expr → Expr
  | .Selected b _ => selBase b
  | e => e

/-- All tags of a selector tower, outermost last. -/
def selTags : Expr → List (List Char)
  | .Selected b tags => selTags b ++ tags
  | _ => []

mutual

/-- The token list the canonical rendering of an expression tokenizes
to: operators and calls in prefix form, selectors as selector tokens. -/
def toksE : Expr → List Token
  | .PackageRef w => [⟨.TPackage, w⟩]
  | .Selected b tags => toksE b ++ tags.map (fun t => ⟨.TSelector, t⟩)
  | .BinaryOp op l r =>
    ⟨.TFunc, [op]⟩ :: ⟨.TLeftParen, ['(']⟩ ::
      (toksE l ++ ⟨.TComma, [',']⟩ :: toksE r ++ [⟨.TRightParen, [')']⟩])
  | .Call n args =>
    (if n.isEmpty then [] else [⟨.TFunc, n⟩]) ++
      ⟨.TLeftParen, ['(']⟩ :: (toksArgs args ++ [⟨.TRightParen, [')']⟩])
  | .Assignment n v => ⟨.TPackage, n⟩ :: ⟨.TAssign, [':', '=']⟩ :: toksE v
  | .Program ss => toksStmts ss

def toksArgs : List Expr → List Token
  | [] => []
  | [e] => toksE e
  | e :: e2 :: es => toksE e ++ ⟨.TComma, [',']⟩ :: toksArgs (e2 :: es)

def toksStmts : List Expr → List Token
  | [] => []
  | [e] => toksE e
  | e :: e2 :: es => toksE e ++ ⟨.TSemicolon, [';']⟩ :: toksStmts (e2 :: es)

end

mutual

/-- What re-parsing the canonical rendering produces: binary operators
become prefix calls named by their sign, and selector towers flatten
into a single `Selected` node.  The canonical rendering itself is
unchanged (`printE_normE`). -/
def normE : Expr → Expr
  | .PackageRef w => .PackageRef w
  | .Selected b tags =>
    match normE b with
    | .Selected b2 tags2 => .Selected b2 (tags2 ++ tags)
    | nb => .Selected nb tags
  | .BinaryOp op l r => .Call [op] [normE l, normE r]
  | .Call n args => .Call n (normArgs args)
  | .Assignment n v => .Assignment n (normE v)
  | .Program ss => .Program (normArgs ss)

def normArgs : List Expr → List Expr
  | [] => []
  | e :: es => normE e :: normArgs es

end

/-- Token boundaries after a complete expression in a canonical token
stream: end of input, a comma, a closing parenthesis, or a semicolon. -/
def tokBoundary : List Token → Bool
  | [] => true
  | t :: _ =>
    match t.kind with
    | .TComma => true
    | .TRightParen => true
    | .TSemicolon => true
    | _ => false

/-- Precondition on a parser job's accumulator. -/
def jobPre : PJob → Prop
  | .chainRest acc => EWF acc
  | .exprRest acc => acc ≠ [] ∧ ∀ a ∈ acc, EWF a
  | _ => True

/-- What each parser job's successful result satisfies when the input
tokens are tokenizer-produced. -/
def jobOK : PJob → PRes → Prop
  | .prim, .one e => EWF e
  | .args, .many es => es ≠ [] ∧ ∀ a ∈ es, EWF a
  | .term, .one e => EWF e
  | .chain, .one e => EWF e
  | .chainRest _, .one e => EWF e
  | .expr, .one e => EWF e
  | .exprRest _, .one e => EWF e
  | .stmt, .one e => StmtWF e
  | .prog, .many ss => ss ≠ [] ∧ ∀ s ∈ ss, StmtWF s
  | _, _ => False

/-! ## The literal corpus of ast_test.go, checked against the model. -/

example : Tokenize "" = [] := rfl

example : Tokenize "golang.org/x/tools/..." =
    [⟨.TPackage, "golang.org/x/tools/...".data⟩] := rfl

example : Tokenize "  github.com/pratikiran/goda-cluster    golang.org/x/tools/...  " =
    [⟨.TPackage, "github.com/pratikiran/goda-cluster".data⟩,
     ⟨.TPackage, "golang.org/x/tools/...".data⟩] := rfl

example : Tokenize "  github.com/pratikiran/goda-cluster  +  golang.org/x/tools/...  " =
    [⟨.TPackage, "github.com/pratikiran/goda-cluster".data⟩,
     ⟨.TOp, ['+']⟩,
     ⟨.TPackage, "golang.org/x/tools/...".data⟩] := rfl

example : Tokenize "std - (std - unsafe:all)" =
    [⟨.TPackage, "std".data⟩, ⟨.TOp, ['-']⟩, ⟨.TLeftParen, ['(']⟩,
     ⟨.TPackage, "std".data⟩, ⟨.TOp, ['-']⟩,
     ⟨.TPackage, "unsafe".data⟩, ⟨.TSelector, "all".data⟩,
     ⟨.TRightParen, [')']⟩] := rfl

example : Tokenize "  github.com/pratikiran/goda-cluster:all - golang.org/x/tools/...  " =
    [⟨.TPackage, "github.com/pratikiran/goda-cluster".data⟩,
     ⟨.TSelector, "all".data⟩, ⟨.TOp, ['-']⟩,
     ⟨.TPackage, "golang.org/x/tools/...".data⟩] := rfl

example : Tokenize "Reaches(github.com/pratikiran/goda-cluster +   github.com/loov/qloc, golang.org/x/tools/...:all)" =
    [⟨.TFunc, "Reaches".data⟩, ⟨.TLeftParen, ['(']⟩,
     ⟨.TPackage, "github.com/pratikiran/goda-cluster".data⟩,
     ⟨.TOp, ['+']⟩, ⟨.TPackage, "github.com/loov/qloc".data⟩,
     ⟨.TComma, [',']⟩, ⟨.TPackage, "golang.org/x/tools/...".data⟩,
     ⟨.TSelector, "all".data⟩, ⟨.TRightParen, [')']⟩] := rfl

example : Tokenize "Reaches(github.com/pratikiran/goda-cluster, golang.org/x/tools/...:all):import:all" =
    [⟨.TFunc, "Reaches".data⟩, ⟨.TLeftParen, ['(']⟩,
     ⟨.TPackage, "github.com/pratikiran/goda-cluster".data⟩,
     ⟨.TComma, [',']⟩, ⟨.TPackage, "golang.org/x/tools/...".data⟩,
     ⟨.TSelector, "all".data⟩, ⟨.TRightParen, [')']⟩,
     ⟨.TSelector, "import".data⟩, ⟨.TSelector, "all".data⟩] := rfl

example : Tokenize "test=1(github.com/pratikiran/goda-cluster)" =
    [⟨.TFunc, "test=1".data⟩, ⟨.TLeftParen, ['(']⟩,
     ⟨.TPackage, "github.com/pratikiran/goda-cluster".data⟩,
     ⟨.TRightParen, [')']⟩] := rfl

example : Tokenize "test=1(github.com/pratikiran/goda-cluster) - test=0(github.com/pratikiran/goda-cluster)" =
    [⟨.TFunc, "test=1".data⟩, ⟨.TLeftParen, ['(']⟩,
     ⟨.TPackage, "github.com/pratikiran/goda-cluster".data⟩,
     ⟨.TRightParen, [')']⟩, ⟨.TOp, ['-']⟩,
     ⟨.TFunc, "test=0".data⟩, ⟨.TLeftParen, ['(']⟩,
     ⟨.TPackage, "github.com/pratikiran/goda-cluster".data⟩,
     ⟨.TRightParen, [')']⟩] := rfl

example : Tokenize "x:-test:+test" =
    [⟨.TPackage, ['x']⟩, ⟨.TSelector, "-test".data⟩,
     ⟨.TSelector, "+test".data⟩] := rfl

example : Tokenize "(x + y):+test" =
    [⟨.TLeftParen, ['(']⟩, ⟨.TPackage, ['x']⟩, ⟨.TOp, ['+']⟩,
     ⟨.TPackage, ['y']⟩, ⟨.TRightParen, [')']⟩,
     ⟨.TSelector, "+test".data⟩] := rfl

example : Tokenize "q:=x:+test;y+q" =
    [⟨.TPackage, ['q']⟩, ⟨.TAssign, [':', '=']⟩, ⟨.TPackage, ['x']⟩,
     ⟨.TSelector, "+test".data⟩, ⟨.TSemicolon, [';']⟩,
     ⟨.TPackage, ['y']⟩, ⟨.TOp, ['+']⟩, ⟨.TPackage, ['q']⟩] := rfl

example : Parse (Tokenize "") = .ok none := rfl

example : Parse (Tokenize "golang.org/x/tools/...") =
    .ok (some (.PackageRef "golang.org/x/tools/...".data)) := rfl

example : Parse (Tokenize "  github.com/pratikiran/goda-cluster    golang.org/x/tools/...  ") =
    .ok (some (.Call []
      [.PackageRef "github.com/pratikiran/goda-cluster".data,
       .PackageRef "golang.org/x/tools/...".data])) := rfl

example : printE (.Call []
      [.PackageRef "github.com/pratikiran/goda-cluster".data,
       .PackageRef "golang.org/x/tools/...".data]) =
    "(github.com/pratikiran/goda-cluster, golang.org/x/tools/...)".data := by
  simp [printE, printArgs]

example : Parse (Tokenize "std - (std - unsafe:all)") =
    .ok (some (.BinaryOp '-' (.PackageRef "std".data)
      (.BinaryOp '-' (.PackageRef "std".data)
        (.Selected (.PackageRef "unsafe".data) ["all".data])))) := rfl

example : printE (.BinaryOp '-' (.PackageRef "std".data)
      (.BinaryOp '-' (.PackageRef "std".data)
        (.Selected (.PackageRef "unsafe".data) ["all".data]))) =
    "-(std, -(std, unsafe:all))".data := by
  simp [printE, printTags]

example : Parse (Tokenize "Reaches(github.com/pratikiran/goda-cluster +   github.com/loov/qloc, golang.org/x/tools/...:all)") =
    .ok (some (.Call "Reaches".data
      [.BinaryOp '+' (.PackageRef "github.com/pratikiran/goda-cluster".data)
        (.PackageRef "github.com/loov/qloc".data),
       .Selected (.PackageRef "golang.org/x/tools/...".data) ["all".data]])) := rfl

example : Parse (Tokenize "Reaches(github.com/pratikiran/goda-cluster, golang.org/x/tools/...:all):import:all") =
    .ok (some (.Selected (.Call "Reaches".data
      [.PackageRef "github.com/pratikiran/goda-cluster".data,
       .Selected (.PackageRef "golang.org/x/tools/...".data) ["all".data]])
      ["import".data, "all".data])) := rfl

example : Parse (Tokenize "test=1(github.com/pratikiran/goda-cluster)") =
    .ok (some (.Call "test=1".data
      [.PackageRef "github.com/pratikiran/goda-cluster".data])) := rfl

example : Parse (Tokenize "x:-test:+test") =
    .ok (some (.Selected (.PackageRef ['x']) ["-test".data, "+test".data])) := rfl

example : Parse (Tokenize "(x + y):+test") =
    .ok (some (.Selected (.BinaryOp '+' (.PackageRef ['x']) (.PackageRef ['y']))
      ["+test".data])) := rfl

example : Parse (Tokenize "q:=x:+test;y+q") =
    .ok (some (.Program
      [.Assignment ['q'] (.Selected (.PackageRef ['x']) ["+test".data]),
       .BinaryOp '+' (.PackageRef ['y']) (.PackageRef ['q'])])) := rfl

example : printE (.Program
      [.Assignment ['q'] (.Selected (.PackageRef ['x']) ["+test".data]),
       .BinaryOp '+' (.PackageRef ['y']) (.PackageRef ['q'])]) =
    "q := x:+test; +(y, q)".data := by
  simp [printE, printStmts, printTags]

/-! ## Tokenizer lemmas: fuel irrelevance and one-step unfoldings. -/

theorem len_dropW_le (p : Char → Bool) (l : List Char) :
    (l.dropWhile p).length ≤ l.length := by
  induction l with
  | nil => simp [List.dropWhile]
  | cons a as ih =>
    by_cases h : p a
    · simp only [List.dropWhile_cons, h, if_true]
      exact Nat.le_succ_of_le ih
    · simp [List.dropWhile_cons, h]

theorem tokF_irrel : ∀ n f g cs, List.length cs ≤ n → List.length cs < f →
    List.length cs < g → tokF f cs = tokF g cs := by
  intro n
  induction n with
  | zero =>
    intro f g cs hn hf hg
    have hcs : cs = [] := List.length_eq_zero.mp (Nat.le_zero.mp hn)
    subst hcs
    cases f with
    | zero => omega
    | succ f =>
      cases g with
      | zero => omega
      | succ g => rfl
  | succ n ih =>
    intro f g cs hn hf hg
    cases cs with
    | nil =>
      cases f with
      | zero => omega
      | succ f =>
        cases g with
        | zero => omega
        | succ g => rfl
    | cons c rest =>
      cases f with
      | zero => omega
      | succ f =>
        cases g with
        | zero => omega
        | succ g =>
          simp only [List.length_cons] at hn hf hg
          have hr : rest.length ≤ n := by omega
          have hf2 : rest.length < f := by omega
          have hg2 : rest.length < g := by omega
          simp only [tokF]
          by_cases h1 : isWS c = true
          · simp only [h1, if_true]
            exact ih f g rest hr hf2 hg2
          · simp only [h1, if_false]
            by_cases h2 : c = '('
            · simp only [h2, if_true]
              rw [ih f g rest hr hf2 hg2]
            · simp only [h2, if_false]
              by_cases h3 : c = ')'
              · simp only [h3, if_true]
                rw [ih f g rest hr hf2 hg2]
              · simp only [h3, if_false]
                by_cases h4 : c = ','
                · simp only [h4, if_true]
                  rw [ih f g rest hr hf2 hg2]
                · simp only [h4, if_false]
                  by_cases h5 : c = ';'
                  · simp only [h5, if_true]
                    rw [ih f g rest hr hf2 hg2]
                  · simp only [h5, if_false]
                    by_cases h6 : c = ':'
                    · simp only [h6, if_true]
                      cases rest with
                      | nil => rfl
                      | cons d rest2 =>
                        simp only [List.length_cons] at hr hf2 hg2
                        by_cases h7 : d = '='
                        · simp only [h7, if_true]
                          rw [ih f g rest2 (by omega) (by omega) (by omega)]
                          simp
                        · simp only [h7, if_false]
                          by_cases h8 : (d = '+' || d = '-') = true
                          · simp only [h8, if_true]
                            have hd := len_dropW_le isWordChar rest2
                            rw [ih f g (rest2.dropWhile isWordChar)
                              (by omega) (by omega) (by omega)]
                            simp
                          · simp only [h8, if_false]
                            have hd := len_dropW_le isWordChar (d :: rest2)
                            simp only [List.length_cons] at hd
                            rw [ih f g ((d :: rest2).dropWhile isWordChar)
                              (by omega) (by omega) (by omega)]
                            simp
                    · simp only [h6, if_false]
                      by_cases h9 : (c = '+' || c = '-') = true
                      · simp only [h9, if_true]
                        by_cases h10 : rest.head? = some '('
                        · simp only [h10, if_true]
                          rw [ih f g rest hr hf2 hg2]
                        · simp only [h10, if_false]
                          rw [ih f g rest hr hf2 hg2]
                      · simp only [h9, if_false]
                        have hd := len_dropW_le isWordChar rest
                        by_cases h11 : (rest.dropWhile isWordChar).head? = some '('
                        · simp only [h11, if_true]
                          rw [ih f g (rest.dropWhile isWordChar)
                            (by omega) (by omega) (by omega)]
                          simp
                        · simp only [h11, if_false]
                          rw [ih f g (rest.dropWhile isWordChar)
                            (by omega) (by omega) (by omega)]
                          simp

theorem tokF_eq_tok (fuel : Nat) (cs : List Char) (h : cs.length < fuel) :
    tokF fuel cs = tok cs :=
  tokF_irrel cs.length fuel (cs.length + 1) cs (Nat.le_refl _) h (Nat.lt_succ_self _)

theorem tok_nil : tok [] = [] := rfl

theorem tok_ws_cons (c : Char) (cs : List Char) (h : isWS c = true) :
    tok (c :: cs) = tok cs := by
  show tokF (cs.length + 1 + 1) (c :: cs) = tok cs
  simp only [tokF, h, if_true]
  rfl

theorem tok_lparen (cs : List Char) :
    tok ('(' :: cs) = ⟨.TLeftParen, ['(']⟩ :: tok cs := rfl

theorem tok_rparen (cs : List Char) :
    tok (')' :: cs) = ⟨.TRightParen, [')']⟩ :: tok cs := rfl

theorem tok_comma (cs : List Char) :
    tok (',' :: cs) = ⟨.TComma, [',']⟩ :: tok cs := rfl

theorem tok_semi (cs : List Char) :
    tok (';' :: cs) = ⟨.TSemicolon, [';']⟩ :: tok cs := rfl

theorem tok_assign (cs : List Char) :
    tok (':' :: '=' :: cs) = ⟨.TAssign, [':', '=']⟩ :: tok cs := by
  have h1 : tok (':' :: '=' :: cs) =
      (⟨.TAssign, [':', '=']⟩ : Token) :: tokF (cs.length + 1 + 1) cs := rfl
  rw [h1, tokF_eq_tok _ _ (by omega)]

theorem tok_colon_nil : tok [':'] = [⟨.TSelector, []⟩] := rfl

theorem tok_sel_sign (d : Char) (cs : List Char) (hd : (d = '+' || d = '-') = true) :
    tok (':' :: d :: cs) =
      ⟨.TSelector, d :: cs.takeWhile isWordChar⟩ :: tok (cs.dropWhile isWordChar) := by
  have hne : ¬(d = '=') := by
    rcases Bool.or_eq_true_iff.mp hd with h | h <;>
      simp only [decide_eq_true_eq] at h <;> simp [h]
  have h1 : tok (':' :: d :: cs) =
      (if d = '=' then (⟨.TAssign, [':', '=']⟩ : Token) :: tokF (cs.length + 2) cs
       else if d = '+' || d = '-' then
         (⟨.TSelector, d :: cs.takeWhile isWordChar⟩ : Token) ::
           tokF (cs.length + 2) (cs.dropWhile isWordChar)
       else
         (⟨.TSelector, (d :: cs).takeWhile isWordChar⟩ : Token) ::
           tokF (cs.length + 2) ((d :: cs).dropWhile isWordChar)) := rfl
  rw [h1, if_neg hne, if_pos hd,
    tokF_eq_tok _ _ (by have := len_dropW_le isWordChar cs; omega)]

theorem tok_sel_plain (d : Char) (cs : List Char) (hne : ¬(d = '='))
    (hns : (d = '+' || d = '-') = false) :
    tok (':' :: d :: cs) =
      ⟨.TSelector, (d :: cs).takeWhile isWordChar⟩ ::
        tok ((d :: cs).dropWhile isWordChar) := by
  have h1 : tok (':' :: d :: cs) =
      (if d = '=' then (⟨.TAssign, [':', '=']⟩ : Token) :: tokF (cs.length + 2) cs
       else if d = '+' || d = '-' then
         (⟨.TSelector, d :: cs.takeWhile isWordChar⟩ : Token) ::
           tokF (cs.length + 2) (cs.dropWhile isWordChar)
       else
         (⟨.TSelector, (d :: cs).takeWhile isWordChar⟩ : Token) ::
           tokF (cs.length + 2) ((d :: cs).dropWhile isWordChar)) := rfl
  rw [h1, if_neg hne, if_neg (by simp [hns]),
    tokF_eq_tok _ _ (by have := len_dropW_le isWordChar (d :: cs); simp at this ⊢; omega)]

theorem tok_sign_cons (c : Char) (cs : List Char) (hc : (c = '+' || c = '-') = true) :
    tok (c :: cs) =
      (if cs.head? = some '(' then (⟨.TFunc, [c]⟩ : Token) else ⟨.TOp, [c]⟩) :: tok cs := by
  rcases Bool.or_eq_true_iff.mp hc with h | h <;>
    simp only [decide_eq_true_eq] at h <;> subst h
  · have h1 : tok ('+' :: cs) =
        (if cs.head? = some '(' then (⟨.TFunc, ['+']⟩ : Token) :: tokF (cs.length + 1) cs
         else (⟨.TOp, ['+']⟩ : Token) :: tokF (cs.length + 1) cs) := rfl
    rw [h1]
    by_cases h2 : cs.head? = some '(' <;> simp [h2, tok]
  · have h1 : tok ('-' :: cs) =
        (if cs.head? = some '(' then (⟨.TFunc, ['-']⟩ : Token) :: tokF (cs.length + 1) cs
         else (⟨.TOp, ['-']⟩ : Token) :: tokF (cs.length + 1) cs) := rfl
    rw [h1]
    by_cases h2 : cs.head? = some '(' <;> simp [h2, tok]

theorem wordChar_facts (c : Char) (h : isWordChar c = true) :
    isWS c = false ∧ ¬(c = '(') ∧ ¬(c = ')') ∧ ¬(c = ',') ∧ ¬(c = ';') ∧
      ¬(c = ':') ∧ ¬(c = '+') := by
  simp only [isWordChar, isBreakChar, isPunctChar, isWS, Bool.not_eq_true',
    Bool.or_eq_false_iff, decide_eq_false_iff_not] at h
  simp only [isWS, Bool.or_eq_false_iff, decide_eq_false_iff_not]
  tauto

theorem tokF_cons (fuel : Nat) (c : Char) (cs : List Char) :
    tokF (fuel + 1) (c :: cs) =
      (if isWS c then tokF fuel cs
       else if c = '(' then ⟨.TLeftParen, ['(']⟩ :: tokF fuel cs
       else if c = ')' then ⟨.TRightParen, [')']⟩ :: tokF fuel cs
       else if c = ',' then ⟨.TComma, [',']⟩ :: tokF fuel cs
       else if c = ';' then ⟨.TSemicolon, [';']⟩ :: tokF fuel cs
       else if c = ':' then
         match cs with
         | [] => [⟨.TSelector, []⟩]
         | d :: rest2 =>
           if d = '=' then ⟨.TAssign, [':', '=']⟩ :: tokF fuel rest2
           else if d = '+' || d = '-' then
             ⟨.TSelector, d :: rest2.takeWhile isWordChar⟩ ::
               tokF fuel (rest2.dropWhile isWordChar)
           else
             ⟨.TSelector, (d :: rest2).takeWhile isWordChar⟩ ::
               tokF fuel ((d :: rest2).dropWhile isWordChar)
       else if c = '+' || c = '-' then
         if cs.head? = some '(' then ⟨.TFunc, [c]⟩ :: tokF fuel cs
         else ⟨.TOp, [c]⟩ :: tokF fuel cs
       else
         if (cs.dropWhile isWordChar).head? = some '(' then
           ⟨.TFunc, c :: cs.takeWhile isWordChar⟩ :: tokF fuel (cs.dropWhile isWordChar)
         else
           ⟨.TPackage, c :: cs.takeWhile isWordChar⟩ :: tokF fuel (cs.dropWhile isWordChar)) := rfl

theorem tok_cons_eq (c : Char) (cs : List Char) :
    tok (c :: cs) =
      (if isWS c then tok cs
       else if c = '(' then ⟨.TLeftParen, ['(']⟩ :: tok cs
       else if c = ')' then ⟨.TRightParen, [')']⟩ :: tok cs
       else if c = ',' then ⟨.TComma, [',']⟩ :: tok cs
       else if c = ';' then ⟨.TSemicolon, [';']⟩ :: tok cs
       else if c = ':' then
         match cs with
         | [] => [⟨.TSelector, []⟩]
         | d :: rest2 =>
           if d = '=' then ⟨.TAssign, [':', '=']⟩ :: tok rest2
           else if d = '+' || d = '-' then
             ⟨.TSelector, d :: rest2.takeWhile isWordChar⟩ ::
               tok (rest2.dropWhile isWordChar)
           else
             ⟨.TSelector, (d :: rest2).takeWhile isWordChar⟩ ::
               tok ((d :: rest2).dropWhile isWordChar)
       else if c = '+' || c = '-' then
         if cs.head? = some '(' then ⟨.TFunc, [c]⟩ :: tok cs
         else ⟨.TOp, [c]⟩ :: tok cs
       else
         if (cs.dropWhile isWordChar).head? = some '(' then
           ⟨.TFunc, c :: cs.takeWhile isWordChar⟩ :: tok (cs.dropWhile isWordChar)
         else
           ⟨.TPackage, c :: cs.takeWhile isWordChar⟩ :: tok (cs.dropWhile isWordChar)) := by
  rw [show tok (c :: cs) = tokF (cs.length + 1 + 1) (c :: cs) from rfl, tokF_cons]
  by_cases h1 : isWS c = true
  · simp only [h1, if_true]
    exact tokF_eq_tok (c :: cs).length cs (by simp)
  · simp only [h1, if_false]
    by_cases h2 : c = '('
    · simp only [h2, if_true]
      rw [tokF_eq_tok _ _ (by omega)]
    · simp only [h2, if_false]
      by_cases h3 : c = ')'
      · simp only [h3, if_true]
        rw [tokF_eq_tok _ _ (by omega)]
      · simp only [h3, if_false]
        by_cases h4 : c = ','
        · simp only [h4, if_true]
          rw [tokF_eq_tok _ _ (by omega)]
        · simp only [h4, if_false]
          by_cases h5 : c = ';'
          · simp only [h5, if_true]
            rw [tokF_eq_tok _ _ (by omega)]
          · simp only [h5, if_false]
            by_cases h6 : c = ':'
            · simp only [h6, if_true]
              cases cs with
              | nil => rfl
              | cons d rest2 =>
                by_cases h7 : d = '='
                · subst h7
                  simp
                  exact tokF_eq_tok _ _ (by omega)
                · simp only [h7, if_false]
                  by_cases h8 : (d = '+' || d = '-') = true
                  · simp only [h8, if_true]
                    simp
                    exact tokF_eq_tok _ _ (by
                      have := len_dropW_le isWordChar rest2; omega)
                  · simp only [h8, if_false]
                    simp
                    exact tokF_eq_tok _ _ (by
                      have := len_dropW_le isWordChar (d :: rest2)
                      simp only [List.length_cons] at this; omega)
            · simp only [h6, if_false]
              by_cases h9 : (c = '+' || c = '-') = true
              · simp only [h9, if_true]
                by_cases h10 : cs.head? = some '('
                · simp only [h10, if_true]
                  simp
                  exact tokF_eq_tok _ _ (by omega)
                · simp only [h10, if_false]
                  simp
                  exact tokF_eq_tok _ _ (by omega)
              · simp only [h9, if_false]
                by_cases h11 : (cs.dropWhile isWordChar).head? = some '('
                · simp only [h11, if_true]
                  simp
                  exact tokF_eq_tok _ _ (by
                    have := len_dropW_le isWordChar cs; omega)
                · simp only [h11, if_false]
                  simp
                  exact tokF_eq_tok _ _ (by
                    have := len_dropW_le isWordChar cs; omega)

theorem tok_word_cons (c : Char) (cs : List Char) (hc : isWordChar c = true)
    (hm : ¬(c = '-')) :
    tok (c :: cs) =
      (if (cs.dropWhile isWordChar).head? = some '(' then
        (⟨.TFunc, c :: cs.takeWhile isWordChar⟩ : Token)
       else ⟨.TPackage, c :: cs.takeWhile isWordChar⟩) :: tok (cs.dropWhile isWordChar) := by
  obtain ⟨hws, hlp, hrp, hcm, hsm, hcl, hpl⟩ := wordChar_facts c hc
  rw [tok_cons_eq]
  simp only [hws, Bool.false_eq_true, if_false, hlp, hrp, hcm, hsm, hcl, hpl, hm,
    decide_eq_true_eq, Bool.or_eq_true_iff, or_self, false_or, or_false]
  by_cases h2 : (cs.dropWhile isWordChar).head? = some '(' <;> simp [h2]

theorem takeWhile_app_of_all (p : Char → Bool) (l r : List Char)
    (h : ∀ x ∈ l, p x = true) : (l ++ r).takeWhile p = l ++ r.takeWhile p := by
  induction l with
  | nil => simp
  | cons a as ih =>
    have ha := h a (by simp)
    simp only [List.cons_append, List.takeWhile_cons, ha, if_true]
    rw [ih (fun x hx => h x (by simp [hx]))]

theorem dropWhile_app_of_all (p : Char → Bool) (l r : List Char)
    (h : ∀ x ∈ l, p x = true) : (l ++ r).dropWhile p = r.dropWhile p := by
  induction l with
  | nil => simp
  | cons a as ih =>
    have ha := h a (by simp)
    simp only [List.cons_append, List.dropWhile_cons, ha, if_true]
    exact ih (fun x hx => h x (by simp [hx]))

theorem takeWhile_of_headBreak (cs : List Char) (h : headBreak cs = true) :
    cs.takeWhile isWordChar = [] := by
  cases cs with
  | nil => rfl
  | cons c rest =>
    simp only [headBreak] at h
    simp [List.takeWhile_cons, isWordChar, h]

theorem dropWhile_of_headBreak (cs : List Char) (h : headBreak cs = true) :
    cs.dropWhile isWordChar = cs := by
  cases cs with
  | nil => rfl
  | cons c rest =>
    simp only [headBreak] at h
    simp [List.dropWhile_cons, isWordChar, h]

theorem sepB_headBreak (cs : List Char) (h : sepB cs = true) : headBreak cs = true := by
  cases cs with
  | nil => rfl
  | cons c rest =>
    simp only [sepB, Bool.or_eq_true_iff, decide_eq_true_eq] at h
    rcases h with ((h | h) | h) | h <;> subst h <;> rfl

theorem sepB_head_ne_lparen (cs : List Char) (h : sepB cs = true) :
    ¬(cs.head? = some '(') := by
  cases cs with
  | nil => simp
  | cons c rest =>
    simp only [sepB, Bool.or_eq_true_iff, decide_eq_true_eq] at h
    rcases h with ((h | h) | h) | h <;> subst h <;> simp

theorem tok_ws_app (sep cs : List Char) (h : ∀ x ∈ sep, isWS x = true) :
    tok (sep ++ cs) = tok cs := by
  induction sep with
  | nil => rfl
  | cons a as ih =>
    rw [List.cons_append, tok_ws_cons a (as ++ cs) (h a (by simp))]
    exact ih (fun x hx => h x (by simp [hx]))

theorem wordOKB_parts (w : List Char) (h : wordOKB w = true) :
    w ≠ [] ∧ (∀ c ∈ w, isWordChar c = true) ∧ ¬(w.head? = some '-') := by
  simp only [wordOKB, Bool.and_eq_true, Bool.not_eq_true', List.all_eq_true,
    beq_eq_false_iff_ne, ne_eq] at h
  obtain ⟨⟨h1, h2⟩, h3⟩ := h
  refine ⟨?_, h2, ?_⟩
  · intro h0
    subst h0
    simp at h1
  · intro h0
    exact h3 h0

theorem tok_word_func_app (w rest : List Char) (hw : wordOKB w = true)
    (hr : rest.head? = some '(') :
    tok (w ++ rest) = ⟨.TFunc, w⟩ :: tok rest := by
  obtain ⟨hne, hall, hhd⟩ := wordOKB_parts w hw
  cases w with
  | nil => exact absurd rfl hne
  | cons c wt =>
    have hc : isWordChar c = true := hall c (by simp)
    have hm : ¬(c = '-') := by
      intro hcm
      exact hhd (by simp [hcm])
    have hrl : rest.dropWhile isWordChar = rest := by
      cases rest with
      | nil => rfl
      | cons r rs =>
        simp only [List.head?_cons, Option.some_inj] at hr
        subst hr
        rfl
    rw [List.cons_append, tok_word_cons c (wt ++ rest) hc hm,
      dropWhile_app_of_all isWordChar wt rest (fun x hx => hall x (by simp [hx])),
      takeWhile_app_of_all isWordChar wt rest (fun x hx => hall x (by simp [hx])),
      hrl]
    have hrt : rest.takeWhile isWordChar = [] := by
      cases rest with
      | nil => rfl
      | cons r rs =>
        simp only [List.head?_cons, Option.some_inj] at hr
        subst hr
        rfl
    rw [hrt, hr]
    simp

theorem tok_word_pkg_brk (w rest : List Char) (hw : wordOKB w = true)
    (hb : headBreak rest = true) (hr : ¬(rest.head? = some '(')) :
    tok (w ++ rest) = ⟨.TPackage, w⟩ :: tok rest := by
  obtain ⟨hne, hall, hhd⟩ := wordOKB_parts w hw
  cases w with
  | nil => exact absurd rfl hne
  | cons c wt =>
    have hc : isWordChar c = true := hall c (by simp)
    have hm : ¬(c = '-') := by
      intro hcm
      exact hhd (by simp [hcm])
    rw [List.cons_append, tok_word_cons c (wt ++ rest) hc hm,
      dropWhile_app_of_all isWordChar wt rest (fun x hx => hall x (by simp [hx])),
      takeWhile_app_of_all isWordChar wt rest (fun x hx => hall x (by simp [hx])),
      dropWhile_of_headBreak rest hb, takeWhile_of_headBreak rest hb]
    rw [if_neg hr]
    simp

theorem tok_word_pkg_app (w rest : List Char) (hw : wordOKB w = true)
    (hr : sepB rest = true) :
    tok (w ++ rest) = ⟨.TPackage, w⟩ :: tok rest :=
  tok_word_pkg_brk w rest hw (sepB_headBreak rest hr) (sepB_head_ne_lparen rest hr)

theorem tok_tag_app (t rest : List Char) (ht : tagOKB t = true) (hr : sepB rest = true) :
    tok (':' :: (t ++ rest)) = ⟨.TSelector, t⟩ :: tok rest := by
  have hb := sepB_headBreak rest hr
  cases t with
  | nil =>
    simp only [List.nil_append]
    cases rest with
    | nil => exact tok_colon_nil
    | cons c rs =>
      simp only [sepB, Bool.or_eq_true_iff, decide_eq_true_eq] at hr
      have hne : ¬(c = '=') := by rcases hr with ((h | h) | h) | h <;> simp [h]
      have hns : (c = '+' || c = '-') = false := by
        rcases hr with ((h | h) | h) | h <;> simp [h]
      rw [tok_sel_plain c rs hne hns,
        takeWhile_of_headBreak (c :: rs) hb, dropWhile_of_headBreak (c :: rs) hb]
  | cons s t2 =>
    by_cases hs : (s = '+' || s = '-') = true
    · have ht2 : ∀ c ∈ t2, isWordChar c = true := by
        simp only [tagOKB, hs, if_true, List.all_eq_true] at ht
        exact ht
      rw [List.cons_append, tok_sel_sign s (t2 ++ rest) hs,
        takeWhile_app_of_all isWordChar t2 rest ht2,
        dropWhile_app_of_all isWordChar t2 rest ht2,
        takeWhile_of_headBreak rest hb, dropWhile_of_headBreak rest hb]
      simp
    · have hsf : (s = '+' || s = '-') = false := Bool.eq_false_iff.mpr hs
      have hparts : ¬(s = '=') ∧ isWordChar s = true ∧ ∀ c ∈ t2, isWordChar c = true := by
        simp only [tagOKB, hsf, Bool.false_eq_true, if_false, Bool.and_eq_true,
          Bool.not_eq_true', beq_eq_false_iff_ne, ne_eq, List.all_eq_true] at ht
        exact ⟨ht.1.1, ht.1.2, ht.2⟩
      have hall : ∀ c ∈ s :: t2, isWordChar c = true := by
        intro c hcm
        rcases List.mem_cons.mp hcm with h | h
        · subst h
          exact hparts.2.1
        · exact hparts.2.2 c h
      rw [List.cons_append, tok_sel_plain s (t2 ++ rest) hparts.1 hsf,
        show s :: (t2 ++ rest) = (s :: t2) ++ rest from (List.cons_append s t2 rest).symm,
        takeWhile_app_of_all isWordChar (s :: t2) rest hall,
        dropWhile_app_of_all isWordChar (s :: t2) rest hall,
        takeWhile_of_headBreak rest hb, dropWhile_of_headBreak rest hb]
      simp

theorem sepB_printTags (tags : List (List Char)) (rest : List Char)
    (hr : sepB rest = true) : sepB (printTags tags ++ rest) = true := by
  cases tags with
  | nil => exact hr
  | cons t ts => rfl

theorem tok_tags_app (tags : List (List Char)) (rest : List Char)
    (ht : ∀ t ∈ tags, tagOKB t = true) (hr : sepB rest = true) :
    tok (printTags tags ++ rest) =
      tags.map (fun t => (⟨.TSelector, t⟩ : Token)) ++ tok rest := by
  induction tags with
  | nil => simp [printTags]
  | cons t ts ih =>
    simp only [printTags, List.cons_append, List.append_assoc]
    rw [show ':' :: (t ++ (printTags ts ++ rest)) = ':' :: (t ++ (printTags ts ++ rest))
      from rfl]
    rw [tok_tag_app t (printTags ts ++ rest) (ht t (by simp)) (sepB_printTags ts rest hr)]
    rw [ih (fun x hx => ht x (by simp [hx]))]
    simp

/-! ## Claim theorems C2 to C7. -/

/-- C2: `+`/`-` chains parse as left-leaning binary trees (`a - b - c`
is `(a - b) - c`, for any package texts), while explicit parenthesization
is preserved in the tree shape: `"std - (std - unsafe:all)"` parses to
`-(std, -(std, unsafe:all))`, a right-nested difference, and that is its
canonical form — not a flattened or re-associated tree. -/
theorem c2_left_assoc_and_paren_shape :
    (∀ a b c : List Char,
      Parse [⟨.TPackage, a⟩, ⟨.TOp, ['-']⟩, ⟨.TPackage, b⟩,
             ⟨.TOp, ['-']⟩, ⟨.TPackage, c⟩] =
        .ok (some (.BinaryOp '-' (.BinaryOp '-' (.PackageRef a) (.PackageRef b))
          (.PackageRef c)))) ∧
    Parse (Tokenize "std - (std - unsafe:all)") =
      .ok (some (.BinaryOp '-' (.PackageRef "std".data)
        (.BinaryOp '-' (.PackageRef "std".data)
          (.Selected (.PackageRef "unsafe".data) ["all".data])))) ∧
    canonical "std - (std - unsafe:all)" = .ok "-(std, -(std, unsafe:all))" := by
  refine ⟨fun a b c => rfl, rfl, ?_⟩
  have h : Parse (Tokenize "std - (std - unsafe:all)") =
      .ok (some (.BinaryOp '-' (.PackageRef "std".data)
        (.BinaryOp '-' (.PackageRef "std".data)
          (.Selected (.PackageRef "unsafe".data) ["all".data])))) := rfl
  simp only [canonical, h, Print, printE, printTags]
  rfl

/-- C3: a selector chain binds to the nearest preceding primary, not the
outer expression: `"(x + y):+test"` attaches `+test` to the whole union
(canonical `"+(x, y):+test"`), `"x + y:tag"` attaches `tag` to `y` only,
and chained selectors as in `"x:-test:+test"` tokenize to consecutive
`Selector` tokens appended in order to the same base (canonical
`"x:-test:+test"`). -/
theorem c3_selector_binding :
    Parse (Tokenize "(x + y):+test") =
      .ok (some (.Selected (.BinaryOp '+' (.PackageRef ['x']) (.PackageRef ['y']))
        ["+test".data])) ∧
    canonical "(x + y):+test" = .ok "+(x, y):+test" ∧
    Parse (Tokenize "x + y:tag") =
      .ok (some (.BinaryOp '+' (.PackageRef ['x'])
        (.Selected (.PackageRef ['y']) ["tag".data]))) ∧
    Tokenize "x:-test:+test" =
      [⟨.TPackage, ['x']⟩, ⟨.TSelector, "-test".data⟩, ⟨.TSelector, "+test".data⟩] ∧
    Parse (Tokenize "x:-test:+test") =
      .ok (some (.Selected (.PackageRef ['x']) ["-test".data, "+test".data])) ∧
    canonical "x:-test:+test" = .ok "x:-test:+test" := by
  refine ⟨rfl, ?_, rfl, rfl, rfl, ?_⟩
  · have h : Parse (Tokenize "(x + y):+test") =
        .ok (some (.Selected (.BinaryOp '+' (.PackageRef ['x']) (.PackageRef ['y']))
          ["+test".data])) := rfl
    simp only [canonical, h, Print, printE, printTags]
    rfl
  · have h : Parse (Tokenize "x:-test:+test") =
        .ok (some (.Selected (.PackageRef ['x']) ["-test".data, "+test".data])) := rfl
    simp only [canonical, h, Print, printE, printTags]
    rfl

/-- C4: a `:` immediately followed by `=` always produces the single
`Assign` token `":="` (checked before selector parsing), and a `:` not
forming `:=` begins a `Selector` token whose text excludes the leading
`:` but includes an optional leading `+`/`-` sign; the corpus input
`"q:=x:+test;y+q"` tokenizes to Package q, Assign, Package x,
Selector +test, Semicolon, Package y, Op +, Package q, with canonical
form `"q := x:+test; +(y, q)"`. -/
theorem c4_assign_and_selector_rule :
    (∀ cs : List Char, tok (':' :: '=' :: cs) = ⟨.TAssign, [':', '=']⟩ :: tok cs) ∧
    (∀ (d : Char) (cs : List Char), (d = '+' || d = '-') = true →
      tok (':' :: d :: cs) =
        ⟨.TSelector, d :: cs.takeWhile isWordChar⟩ :: tok (cs.dropWhile isWordChar)) ∧
    (∀ (d : Char) (cs : List Char), ¬(d = '=') → (d = '+' || d = '-') = false →
      tok (':' :: d :: cs) =
        ⟨.TSelector, (d :: cs).takeWhile isWordChar⟩ ::
          tok ((d :: cs).dropWhile isWordChar)) ∧
    Tokenize "q:=x:+test;y+q" =
      [⟨.TPackage, ['q']⟩, ⟨.TAssign, [':', '=']⟩, ⟨.TPackage, ['x']⟩,
       ⟨.TSelector, "+test".data⟩, ⟨.TSemicolon, [';']⟩,
       ⟨.TPackage, ['y']⟩, ⟨.TOp, ['+']⟩, ⟨.TPackage, ['q']⟩] ∧
    canonical "q:=x:+test;y+q" = .ok "q := x:+test; +(y, q)" := by
  refine ⟨tok_assign, tok_sel_sign, tok_sel_plain, rfl, ?_⟩
  have h : Parse (Tokenize "q:=x:+test;y+q") =
      .ok (some (.Program
        [.Assignment ['q'] (.Selected (.PackageRef ['x']) ["+test".data]),
         .BinaryOp '+' (.PackageRef ['y']) (.PackageRef ['q'])])) := rfl
  simp only [canonical, h, Print, printE, printStmts, printTags]
  rfl

/-- C5: a maximal word becomes a `Func` token exactly when the
immediately next character is `(` and a `Package` token at any other
break boundary (end of input, whitespace, or any break character other
than `(` — in particular word, whitespace, then `(` is a `Package`,
since the lookahead allows no intervening whitespace); function names
may contain characters illegal in package paths, as in
`"test=1(github.com/pratikiran/goda-cluster)"`, whose canonical form is
the same string. -/
theorem c5_func_vs_package :
    (∀ w rest : List Char, wordOKB w = true → rest.head? = some '(' →
      tok (w ++ rest) = ⟨.TFunc, w⟩ :: tok rest) ∧
    (∀ w rest : List Char, wordOKB w = true → headBreak rest = true →
      ¬(rest.head? = some '(') →
      tok (w ++ rest) = ⟨.TPackage, w⟩ :: tok rest) ∧
    (∀ w cs : List Char, wordOKB w = true →
      tok (w ++ ' ' :: '(' :: cs) =
        ⟨.TPackage, w⟩ :: ⟨.TLeftParen, ['(']⟩ :: tok cs) ∧
    Tokenize "test=1(github.com/pratikiran/goda-cluster)" =
      [⟨.TFunc, "test=1".data⟩, ⟨.TLeftParen, ['(']⟩,
       ⟨.TPackage, "github.com/pratikiran/goda-cluster".data⟩,
       ⟨.TRightParen, [')']⟩] ∧
    canonical "test=1(github.com/pratikiran/goda-cluster)" =
      .ok "test=1(github.com/pratikiran/goda-cluster)" := by
  refine ⟨tok_word_func_app, tok_word_pkg_brk, ?_, rfl, ?_⟩
  · intro w cs hw
    rw [tok_word_pkg_brk w (' ' :: '(' :: cs) hw rfl (by simp),
      tok_ws_cons ' ' _ (by decide), tok_lparen]
  have h : Parse (Tokenize "test=1(github.com/pratikiran/goda-cluster)") =
      .ok (some (.Call "test=1".data
        [.PackageRef "github.com/pratikiran/goda-cluster".data])) := rfl
  simp only [canonical, h, Print, printE, printArgs]
  rfl

/-- C6: two bare words separated only by whitespace tokenize to exactly
two `Package` tokens with the exact word texts, and parse to the
unnamed-call list whose canonical form is `"(w1, w2)"`; in the corpus,
`"(github.com/pratikiran/goda-cluster, golang.org/x/tools/...)"`. -/
theorem c6_juxtaposition (w1 w2 sep : List Char)
    (h1 : wordOKB w1 = true) (h2 : wordOKB w2 = true)
    (hsep1 : sep ≠ []) (hsep : ∀ c ∈ sep, isWS c = true) :
    tok (w1 ++ (sep ++ w2)) = [⟨.TPackage, w1⟩, ⟨.TPackage, w2⟩] ∧
    Parse [⟨.TPackage, w1⟩, ⟨.TPackage, w2⟩] =
      .ok (some (.Call [] [.PackageRef w1, .PackageRef w2])) ∧
    printE (.Call [] [.PackageRef w1, .PackageRef w2]) =
      '(' :: (w1 ++ ',' :: ' ' :: w2 ++ [')']) ∧
    canonical "  github.com/pratikiran/goda-cluster    golang.org/x/tools/...  " =
      .ok "(github.com/pratikiran/goda-cluster, golang.org/x/tools/...)" := by
  refine ⟨?_, rfl, by simp [printE, printArgs], ?_⟩
  · cases sep with
    | nil => exact absurd rfl hsep1
    | cons a asep =>
      have ha := hsep a (by simp)
      have hstep : tok (w1 ++ (a :: asep ++ w2)) =
          ⟨.TPackage, w1⟩ :: tok (a :: asep ++ w2) := by
        apply tok_word_pkg_brk w1 (a :: asep ++ w2) h1
        · simp only [List.cons_append, headBreak, isBreakChar, ha, Bool.true_or]
        · simp only [isWS, Bool.or_eq_true_iff, decide_eq_true_eq] at ha
          rcases ha with ((h | h) | h) | h <;> subst h <;> simp
      rw [hstep, tok_ws_app (a :: asep) w2 hsep]
      have : tok w2 = [⟨.TPackage, w2⟩] := by
        have := tok_word_pkg_app w2 [] h2 rfl
        simpa using this
      rw [this]
  · have h : Parse (Tokenize "  github.com/pratikiran/goda-cluster    golang.org/x/tools/...  ") =
        .ok (some (.Call []
          [.PackageRef "github.com/pratikiran/goda-cluster".data,
           .PackageRef "golang.org/x/tools/...".data])) := rfl
    simp only [canonical, h, Print, printE, printArgs]
    rfl

/-- C6 witness: the generic juxtaposition theorem applied at the two
corpus package paths separated by two spaces. -/
theorem c6_juxtaposition_witness :
    wordOKB "github.com/pratikiran/goda-cluster".data = true ∧
    wordOKB "golang.org/x/tools/...".data = true ∧
    tok ("github.com/pratikiran/goda-cluster".data ++
        ([' ', ' '] ++ "golang.org/x/tools/...".data)) =
      [⟨.TPackage, "github.com/pratikiran/goda-cluster".data⟩,
       ⟨.TPackage, "golang.org/x/tools/...".data⟩] := by
  refine ⟨by decide, by decide, ?_⟩
  exact (c6_juxtaposition "github.com/pratikiran/goda-cluster".data
    "golang.org/x/tools/...".data [' ', ' '] (by decide) (by decide)
    (by simp) (by decide)).1

/-- C7: tokenizing the empty string or any all-whitespace string yields
the empty token sequence (and no error: the modelled tokenizer is
total), and parsing an empty token sequence yields a nil program
(`none`) and no error. -/
theorem c7_empty_input :
    Tokenize "" = [] ∧
    (∀ s : String, (∀ c ∈ s.data, isWS c = true) → Tokenize s = []) ∧
    Parse [] = .ok none := by
  refine ⟨rfl, ?_, rfl⟩
  intro s h
  have := tok_ws_app s.data [] h
  simpa [Tokenize] using this

/-! ## C9: longestCommonPrefix and GetBasePackage. -/

theorem lcp_pref_left (a b : List Char) : prefB (lcpChars a b) a = true := by
  induction a generalizing b with
  | nil => cases b <;> rfl
  | cons x xs ih =>
    cases b with
    | nil => rfl
    | cons y ys =>
      by_cases h : x = y
      · simp only [lcpChars, h, if_true, prefB, ih ys, Bool.and_true, decide_eq_true_eq]
      · simp [lcpChars, h, prefB]

theorem lcp_pref_right (a b : List Char) : prefB (lcpChars a b) b = true := by
  induction a generalizing b with
  | nil => cases b <;> rfl
  | cons x xs ih =>
    cases b with
    | nil => rfl
    | cons y ys =>
      by_cases h : x = y
      · subst h
        simp only [lcpChars, if_true, prefB, ih ys, Bool.and_true, decide_eq_true_eq]
      · simp [lcpChars, h, prefB]

theorem lcp_longest (p a b : List Char) (ha : prefB p a = true) (hb : prefB p b = true) :
    p.length ≤ (lcpChars a b).length := by
  induction p generalizing a b with
  | nil => simp
  | cons x xs ih =>
    cases a with
    | nil => simp [prefB] at ha
    | cons y ys =>
      cases b with
      | nil => simp [prefB] at hb
      | cons z zs =>
        simp only [prefB, Bool.and_eq_true, decide_eq_true_eq] at ha hb
        obtain ⟨rfl, ha2⟩ := ha
        obtain ⟨rfl, hb2⟩ := hb
        simp only [lcpChars, if_true, List.length_cons]
        have := ih ys zs ha2 hb2
        simp
        omega

theorem shortestID_mem (acc : String) (nodes : List Node) :
    shortestID acc nodes = acc ∨ ∃ n ∈ nodes, shortestID acc nodes = n.ID := by
  induction nodes generalizing acc with
  | nil => exact Or.inl rfl
  | cons n ns ih =>
    simp only [shortestID, List.foldl_cons] at *
    by_cases h : n.ID.length < acc.length
    · simp only [h, if_true]
      rcases ih n.ID with h2 | ⟨m, hm, h2⟩
      · exact Or.inr ⟨n, by simp, h2⟩
      · exact Or.inr ⟨m, by simp [hm], h2⟩
    · simp only [h, if_false]
      rcases ih acc with h2 | ⟨m, hm, h2⟩
      · exact Or.inl h2
      · exact Or.inr ⟨m, by simp [hm], h2⟩

theorem ite_ne_empty (x y : String) (hy : y ≠ "") : (if x ≠ "" then x else y) ≠ "" := by
  by_cases h : x ≠ ""
  · rw [if_pos h]
    exact h
  · rw [if_neg h]
    exact hy

theorem gbp_ne_empty (g : Graph) (h : ∀ n ∈ g.Sorted, n.ID ≠ "")
    (hne : g.Sorted ≠ []) : GetBasePackage g ≠ "" := by
  cases hS : g.Sorted with
  | nil => exact absurd hS hne
  | cons first rest =>
    have hbase : shortestID first.ID (first :: rest) ≠ "" := by
      rcases shortestID_mem first.ID (first :: rest) with h2 | ⟨m, hm, h2⟩
      · rw [h2]
        exact h first (by rw [hS]; simp)
      · rw [h2]
        exact h m (by rw [hS]; exact hm)
    simp only [GetBasePackage, hS]
    by_cases hlen : (first :: rest).length > 1
    · simp only [hlen, if_true]
      exact ite_ne_empty _ _ hbase
    · simp only [hlen, if_false]
      exact hbase

/-- C9 counterexample: a graph with one node whose ID is the empty
string has a node, yet `GetBasePackage` returns the empty string — the
"exactly when the graph has no nodes" direction fails. -/
theorem c9_counterexample :
    GetBasePackage ⟨[⟨""⟩]⟩ = "" ∧ (⟨[⟨""⟩]⟩ : Graph).Sorted ≠ [] := by
  exact ⟨rfl, by simp⟩

/-- C9 (amended): `longestCommonPrefix a b` is a prefix of both `a` and
`b` and no strictly longer string is a prefix of both; and provided
every node ID is nonempty, `GetBasePackage` returns the empty string
exactly when the graph has no nodes. -/
theorem c9_lcp_and_base (a b : String) :
    prefB ( longestCommonPrefix a b).data a.data = true ∧
    prefB ( longestCommonPrefix a b).data b.data = true ∧
    (∀ p : List Char, prefB p a.data = true → prefB p b.data = true →
      p.length ≤ ( longestCommonPrefix a b).data.length) ∧
    (∀ g : Graph, (∀ n ∈ g.Sorted, n.ID ≠ "") →
      (GetBasePackage g = "" ↔ g.Sorted = [])) := by
  refine ⟨lcp_pref_left a.data b.data, lcp_pref_right a.data b.data,
    fun p hp hq => lcp_longest p a.data b.data hp hq, fun g h => ?_⟩
  constructor
  · intro hres
    by_cases hne : g.Sorted = []
    · exact hne
    · exact absurd hres (gbp_ne_empty g h hne)
  · intro hS
    simp [GetBasePackage, hS]

/-- C9 witness: the amended theorem applied at a concrete two-node graph
with nonempty IDs, and at two concrete strings. -/
theorem c9_lcp_and_base_witness :
    prefB ( longestCommonPrefix "ab/cd" "ab/ce").data "ab/cd".data = true ∧
    (∀ n ∈ (⟨[⟨"ab"⟩, ⟨"ab/c"⟩]⟩ : Graph).Sorted, n.ID ≠ "") ∧
    (GetBasePackage ⟨[⟨"ab"⟩, ⟨"ab/c"⟩]⟩ = "" ↔
      (⟨[⟨"ab"⟩, ⟨"ab/c"⟩]⟩ : Graph).Sorted = []) := by
  refine ⟨(c9_lcp_and_base "ab/cd" "ab/ce").1, by decide,
    (c9_lcp_and_base "x" "y").2.2.2 ⟨[⟨"ab"⟩, ⟨"ab/c"⟩]⟩ (by decide)⟩

/-! ## C10: invariants of ClusterByDirectory. -/

theorem addPkg_path_depth (dc : DirCluster) (pkg : Package) :
    (dc.AddPackage pkg).Path = dc.Path ∧ (dc.AddPackage pkg).Depth = dc.Depth := by
  cases dc
  exact ⟨rfl, rfl⟩

theorem addPkg_wf (maxD : Int) (dc : DirCluster) (pkg : Package)
    (h : ClusterWF maxD dc) : ClusterWF maxD (dc.AddPackage pkg) := by
  cases h with
  | intro p d ch pk hd hdep hpath hrec =>
    exact ClusterWF.intro p d ch (pk ++ [pkg]) hd hdep
      (by simpa [childPathOf, DirCluster.Path] using hpath) hrec

theorem setChild_mem (ch : List (String × DirCluster)) (name : String)
    (c : DirCluster) (q : String × DirCluster) (h : q ∈ setChild ch name c) :
    q = (name, c) ∨ q ∈ ch := by
  induction ch with
  | nil =>
    simp only [setChild, List.mem_singleton] at h
    exact Or.inl h
  | cons p0 rest ih =>
    simp only [setChild] at h
    by_cases he : p0.1 = name
    · rw [if_pos he] at h
      rcases List.mem_cons.mp h with h2 | h2
      · exact Or.inl h2
      · exact Or.inr (by simp [h2])
    · rw [if_neg he] at h
      rcases List.mem_cons.mp h with h2 | h2
      · exact Or.inr (by simp [h2])
      · rcases ih h2 with h3 | h3
        · exact Or.inl h3
        · exact Or.inr (by simp [h3])

theorem lookupChild_mem (ch : List (String × DirCluster)) (name : String)
    (c : DirCluster) (h : lookupChild ch name = some c) : (name, c) ∈ ch := by
  induction ch with
  | nil => simp [lookupChild] at h
  | cons p0 rest ih =>
    simp only [lookupChild] at h
    by_cases he : p0.1 = name
    · rw [if_pos he] at h
      obtain ⟨n0, c0⟩ := p0
      simp only at he h
      simp only [Option.some_inj] at h
      subst he
      subst h
      exact List.mem_cons_self _ _
    · rw [if_neg he] at h
      exact List.mem_cons_of_mem _ (ih h)

theorem insertParts_path_depth (maxD : Int) (pkg : Package) :
    ∀ (parts : List String) (dc : DirCluster) (depth : Nat),
      (insertParts dc parts depth maxD pkg).Path = dc.Path ∧
      (insertParts dc parts depth maxD pkg).Depth = dc.Depth := by
  intro parts
  induction parts with
  | nil =>
    intro dc depth
    exact addPkg_path_depth dc pkg
  | cons part restParts ih =>
    intro dc depth
    simp only [insertParts]
    by_cases hbr : 0 < maxD ∧ maxD < (depth : Int)
    · rw [if_pos hbr]
      exact addPkg_path_depth dc pkg
    · rw [if_neg hbr]
      cases dc
      exact ⟨rfl, rfl⟩

theorem insertParts_wf (maxD : Int) (pkg : Package) (hpos : 0 < maxD) :
    ∀ (parts : List String) (dc : DirCluster) (depth : Nat),
      ClusterWF maxD dc → depth = dc.Depth + 1 →
      ClusterWF maxD (insertParts dc parts depth maxD pkg) := by
  intro parts
  induction parts with
  | nil =>
    intro dc depth hwf _
    exact addPkg_wf maxD dc pkg hwf
  | cons part restParts ih =>
    intro dc depth hwf hdc
    simp only [insertParts]
    by_cases hbr : 0 < maxD ∧ maxD < (depth : Int)
    · rw [if_pos hbr]
      exact addPkg_wf maxD dc pkg hwf
    · rw [if_neg hbr]
      have hdle : (depth : Int) ≤ maxD := by
        rcases not_and_or.mp hbr with h | h
        · exact absurd hpos h
        · omega
      cases hwf with
      | intro p d ch pk hd hdep hpath hrec =>
        simp only [DirCluster.Depth] at hdc
        have main : ∀ child : DirCluster,
            child.Depth = d + 1 →
            child.Path = childPathOf ⟨p, d, ch, pk⟩ part →
            ClusterWF maxD child →
            ClusterWF maxD (⟨p, d,
              setChild ch part (insertParts child restParts (depth + 1) maxD pkg),
              pk⟩ : DirCluster) := by
          intro child hcd hcp hcw
          have hrecw : ClusterWF maxD (insertParts child restParts (depth + 1) maxD pkg) :=
            ih child (depth + 1) hcw (by rw [hcd, hdc])
          obtain ⟨hip, hid⟩ := insertParts_path_depth maxD pkg restParts child (depth + 1)
          refine ClusterWF.intro p d _ pk hd ?_ ?_ ?_
          · intro q hq
            rcases setChild_mem ch part _ q hq with h2 | h2
            · rw [h2]
              simp only [hid, hcd]
            · exact hdep q h2
          · intro q hq
            rcases setChild_mem ch part _ q hq with h2 | h2
            · rw [h2]
              simp only [hip, hcp]
              simp [childPathOf, DirCluster.Path]
            · rw [hpath q h2]
              simp [childPathOf, DirCluster.Path]
          · intro q hq
            rcases setChild_mem ch part _ q hq with h2 | h2
            · rw [h2]
              exact hrecw
            · exact hrec q h2
        simp only [DirCluster.Children]
        cases hl : lookupChild ch part with
        | some c0 =>
          have hm := lookupChild_mem ch part c0 hl
          exact main c0 (hdep (part, c0) hm) (hpath (part, c0) hm) (hrec (part, c0) hm)
        | none =>
          refine main _ ?_ ?_ ?_
          · simp [NewDirCluster, DirCluster.Depth, hdc]
          · simp [NewDirCluster, DirCluster.Path]
          · exact ClusterWF.intro _ depth [] [] (by omega) (by simp) (by simp) (by simp)

theorem insChild_mem (p : String × DirCluster) (l : List (String × DirCluster))
    (q : String × DirCluster) : q ∈ insChild p l ↔ q = p ∨ q ∈ l := by
  induction l with
  | nil => simp [insChild]
  | cons r rest ih =>
    simp only [insChild]
    by_cases h : p.1 ≤ r.1
    · rw [if_pos h]
      simp
    · rw [if_neg h]
      simp only [List.mem_cons, ih]
      tauto

theorem sortPairs_mem (l : List (String × DirCluster)) (q : String × DirCluster) :
    q ∈ sortPairs l ↔ q ∈ l := by
  induction l with
  | nil => simp [sortPairs]
  | cons r rest ih =>
    simp only [sortPairs, insChild_mem, ih, List.mem_cons]

theorem sortDCList_mem (ch : List (String × DirCluster)) (q : String × DirCluster) :
    q ∈ sortDCList ch ↔ ∃ x ∈ ch, q = (x.1, sortDC x.2) := by
  induction ch with
  | nil => simp [sortDCList]
  | cons r rest ih =>
    simp only [sortDCList, List.mem_cons, ih]
    constructor
    · intro h
      rcases h with h | ⟨x, hx, h⟩
      · exact ⟨r, Or.inl rfl, h⟩
      · exact ⟨x, Or.inr hx, h⟩
    · intro ⟨x, hx, h⟩
      rcases hx with hx | hx
      · subst hx
        exact Or.inl h
      · exact Or.inr ⟨x, hx, h⟩

theorem sortDC_props (maxD : Int) :
    ∀ (n : Nat) (dc : DirCluster), sizeOf dc ≤ n →
      (sortDC dc).Path = dc.Path ∧ (sortDC dc).Depth = dc.Depth ∧
      (ClusterWF maxD dc → ClusterWF maxD (sortDC dc)) := by
  intro n
  induction n with
  | zero =>
    intro dc h
    cases dc
    simp at h
  | succ n ih =>
    intro dc hsz
    cases dc with
    | mk p d ch pk =>
      have hsub : ∀ x ∈ ch, sizeOf x.2 ≤ n := by
        intro x hx
        have h1 := List.sizeOf_lt_of_mem hx
        have h2 : sizeOf x.2 < sizeOf x := by
          obtain ⟨a, b⟩ := x
          simp
          try omega
        simp only [DirCluster.mk.sizeOf_spec] at hsz
        omega
      simp only [sortDC]
      refine ⟨rfl, rfl, ?_⟩
      intro hwf
      cases hwf with
      | intro _ _ _ _ hd hdep hpath hrec =>
        refine ClusterWF.intro p d _ pk hd ?_ ?_ ?_
        · intro q hq
          obtain ⟨x, hx, rfl⟩ := (sortDCList_mem ch q).mp ((sortPairs_mem _ q).mp hq)
          have := (ih x.2 (hsub x hx)).2.1
          simp only [this]
          exact hdep x hx
        · intro q hq
          obtain ⟨x, hx, rfl⟩ := (sortDCList_mem ch q).mp ((sortPairs_mem _ q).mp hq)
          have := (ih x.2 (hsub x hx)).1
          simp only [this]
          rw [hpath x hx]
          simp [childPathOf, DirCluster.Path]
        · intro q hq
          obtain ⟨x, hx, rfl⟩ := (sortDCList_mem ch q).mp ((sortPairs_mem _ q).mp hq)
          exact (ih x.2 (hsub x hx)).2.2 (hrec x hx)

theorem foldl_preserve {α β : Type} (P : α → Prop) (f : α → β → α)
    (hf : ∀ a b, P a → P (f a b)) : ∀ (l : List β) (a : α), P a → P (l.foldl f a) := by
  intro l
  induction l with
  | nil => intro a h; exact h
  | cons b bs ih =>
    intro a h
    exact ih (f a b) (hf a b h)

theorem addPackageToCluster_pres (maxD : Int) (base : String) (pkg : Package)
    (hpos : 0 < maxD) (acc : DirCluster)
    (h : ClusterWF maxD acc ∧ acc.Depth = 0) :
    ClusterWF maxD (addPackageToCluster acc pkg base maxD) ∧
      (addPackageToCluster acc pkg base maxD).Depth = 0 := by
  obtain ⟨hwf, hdep⟩ := h
  simp only [addPackageToCluster]
  by_cases h1 : base ≠ "" ∧ (base ++ "/").isPrefixOf pkg.GraphNode.ID
  · rw [if_pos h1]
    refine ⟨insertParts_wf maxD pkg hpos _ acc 1 hwf (by rw [hdep]), ?_⟩
    rw [(insertParts_path_depth maxD pkg _ acc 1).2, hdep]
  · rw [if_neg h1]
    by_cases h2 : pkg.GraphNode.ID = base
    · rw [if_pos h2]
      exact ⟨addPkg_wf maxD acc pkg hwf, by rw [(addPkg_path_depth acc pkg).2, hdep]⟩
    · rw [if_neg h2]
      refine ⟨insertParts_wf maxD pkg hpos _ acc 1 hwf (by rw [hdep]), ?_⟩
      rw [(insertParts_path_depth maxD pkg _ acc 1).2, hdep]

theorem clusterByDir_wf (t : Tree) (base : String) (maxD : Int) (hpos : 0 < maxD) :
    ClusterWF maxD (ClusterByDirectory t base maxD) := by
  have hroot : ClusterWF maxD (NewDirCluster "" 0) ∧ (NewDirCluster "" 0).Depth = 0 := by
    refine ⟨ClusterWF.intro "" 0 [] [] (by omega) (by simp) (by simp) (by simp), rfl⟩
  have hstep : ∀ acc (pkg : Package),
      ClusterWF maxD acc ∧ acc.Depth = 0 →
      ClusterWF maxD (addPackageToCluster acc pkg base maxD) ∧
        (addPackageToCluster acc pkg base maxD).Depth = 0 :=
    fun acc pkg h => addPackageToCluster_pres maxD base pkg hpos acc h
  have hfold : ClusterWF maxD (t.Repos.foldl (fun acc repo =>
      let acc2 := repo.Modules.foldl
        (fun a m => m.Pkgs.foldl
          (fun a2 p => addPackageToCluster a2 p base maxD) a) acc
      repo.Pkgs.foldl (fun a p => addPackageToCluster a p base maxD) acc2)
        (NewDirCluster "" 0)) ∧
      (t.Repos.foldl (fun acc repo =>
      let acc2 := repo.Modules.foldl
        (fun a m => m.Pkgs.foldl
          (fun a2 p => addPackageToCluster a2 p base maxD) a) acc
      repo.Pkgs.foldl (fun a p => addPackageToCluster a p base maxD) acc2)
        (NewDirCluster "" 0)).Depth = 0 := by
    apply foldl_preserve (fun a => ClusterWF maxD a ∧ a.Depth = 0)
    · intro a repo ha
      apply foldl_preserve (fun a => ClusterWF maxD a ∧ a.Depth = 0) _ hstep
      apply foldl_preserve (fun a => ClusterWF maxD a ∧ a.Depth = 0)
      · intro a2 m ha2
        exact foldl_preserve (fun a => ClusterWF maxD a ∧ a.Depth = 0) _ hstep m.Pkgs a2 ha2
      · exact ha
    · exact hroot
  simp only [ClusterByDirectory]
  exact (sortDC_props maxD (sizeOf _) _ (Nat.le_refl _)).2.2 hfold.1

theorem clusterWF_sub (maxD : Int) (dc c : DirCluster) (hsub : Subcluster dc c)
    (hwf : ClusterWF maxD dc) :
    (c.Depth : Int) ≤ maxD ∧ (∀ q ∈ c.Children, q.2.Path = childPathOf c q.1) := by
  induction hsub with
  | refl dc0 =>
    cases hwf with
    | intro p d ch pk hd hdep hpath hrec => exact ⟨hd, hpath⟩
  | child dc0 q c0 hq hs ih =>
    cases hwf with
    | intro p d ch pk hd hdep hpath hrec => exact ih (hrec q hq)

/-- C10: for every tree, base package and `maxDepth > 0`, every cluster
of the `ClusterByDirectory` result (so in particular every cluster a
package is attached to) has `Depth` at most `maxDepth`, and every
child's `Path` is its parent's `Path` extended by `"/"` and the child
name — the bare name when the parent is the root with empty path. -/
theorem c10_dircluster_invariants (t : Tree) (basePackage : String) (maxDepth : Int)
    (hpos : 0 < maxDepth) (c : DirCluster)
    (hc : Subcluster (ClusterByDirectory t basePackage maxDepth) c) :
    (c.Depth : Int) ≤ maxDepth ∧
    (∀ q ∈ c.Children, q.2.Path = childPathOf c q.1) ∧
    (∀ pkg ∈ c.Packages, (c.Depth : Int) ≤ maxDepth) := by
  have h := clusterWF_sub maxDepth _ c hc
    (clusterByDir_wf t basePackage maxDepth hpos)
  exact ⟨h.1, h.2, fun pkg _ => h.1⟩

/-- C10 witness: the invariants instantiated at a one-repo tree with a
module package `a/b` and a repo package `a/c`, depth limit 2, at the
root of the resulting cluster tree. -/
theorem c10_dircluster_invariants_witness :
    ((ClusterByDirectory ⟨[⟨[⟨[⟨⟨"a/b"⟩⟩]⟩], [⟨⟨"a/c"⟩⟩]⟩]⟩ "" 2).Depth : Int) ≤ 2 ∧
    (∀ q ∈ (ClusterByDirectory ⟨[⟨[⟨[⟨⟨"a/b"⟩⟩]⟩], [⟨⟨"a/c"⟩⟩]⟩]⟩ "" 2).Children,
      q.2.Path = childPathOf (ClusterByDirectory ⟨[⟨[⟨[⟨⟨"a/b"⟩⟩]⟩], [⟨⟨"a/c"⟩⟩]⟩]⟩ "" 2) q.1) ∧
    (∀ pkg ∈ (ClusterByDirectory ⟨[⟨[⟨[⟨⟨"a/b"⟩⟩]⟩], [⟨⟨"a/c"⟩⟩]⟩]⟩ "" 2).Packages,
      ((ClusterByDirectory ⟨[⟨[⟨[⟨⟨"a/b"⟩⟩]⟩], [⟨⟨"a/c"⟩⟩]⟩]⟩ "" 2).Depth : Int) ≤ 2) :=
  c10_dircluster_invariants ⟨[⟨[⟨[⟨⟨"a/b"⟩⟩]⟩], [⟨⟨"a/c"⟩⟩]⟩]⟩ "" 2 (by decide) _
    (Subcluster.refl _)

/-! ## C8: structural violations are parse errors, and the tokenizer
rules are total. -/

theorem lastNL_nil : lastNotLParen [] := by
  intro tk h
  simp at h

theorem lastNL_append (a b : List Token) (ha : lastNotLParen a)
    (hb : lastNotLParen b) : lastNotLParen (a ++ b) := by
  intro tk h
  cases hbe : b with
  | nil =>
    subst hbe
    simp only [List.append_nil] at h
    exact ha tk h
  | cons x xs =>
    rw [List.getLast?_append_of_ne_nil a (by simp [hbe])] at h
    rw [hbe] at h
    exact hb tk (by rw [hbe]; exact h)

theorem lastNL_cons (t : Token) (l : List Token) (ht : t.kind ≠ .TLeftParen)
    (hl : lastNotLParen l) : lastNotLParen (t :: l) := by
  intro tk h
  cases hle : l with
  | nil =>
    subst hle
    simp only [List.getLast?_singleton, Option.some_inj] at h
    subst h
    exact ht
  | cons x xs =>
    rw [show t :: l = [t] ++ l from rfl,
      List.getLast?_append_of_ne_nil [t] (by simp [hle])] at h
    exact hl tk h

theorem lastNL_cons_ne_nil (t : Token) (l : List Token) (hne : l ≠ [])
    (hl : lastNotLParen l) : lastNotLParen (t :: l) := by
  intro tk h
  rw [show t :: l = [t] ++ l from rfl,
    List.getLast?_append_of_ne_nil [t] hne] at h
  exact hl tk h

theorem parseSelectors_span : ∀ (ts : List Token) (tags : List (List Char))
    (rest : List Token), parseSelectors ts = (tags, rest) →
    ∃ sels, ts = sels ++ rest ∧ ∀ tk ∈ sels, tk.kind = .TSelector := by
  intro ts
  induction ts with
  | nil =>
    intro tags rest h
    simp only [parseSelectors, Prod.mk.injEq] at h
    exact ⟨[], by simp [← h.2], by simp⟩
  | cons t ts0 ih =>
    intro tags rest h
    cases t with
    | mk k txt =>
      cases k
      case TSelector =>
        simp only [parseSelectors] at h
        cases hs : parseSelectors ts0 with
        | mk tags2 r2 =>
          rw [hs] at h
          simp only [Prod.mk.injEq] at h
          obtain ⟨sels, h1, h2⟩ := ih tags2 r2 hs
          refine ⟨⟨.TSelector, txt⟩ :: sels, ?_, ?_⟩
          · simp [h1, ← h.2]
          · intro tk htk
            rcases List.mem_cons.mp htk with h3 | h3
            · rw [h3]
            · exact h2 tk h3
      all_goals
        simp only [parseSelectors, Prod.mk.injEq] at h
        exact ⟨[], by simp [← h.2], by simp⟩

theorem parseF_consumed : ∀ (fuel : Nat) (job : PJob) (ts : List Token)
    (r : PRes) (rest : List Token),
    parseF fuel job ts = .ok (r, rest) →
    ∃ pre, ts = pre ++ rest ∧ lastNotLParen pre := by
  intro fuel
  induction fuel with
  | zero =>
    intro job ts r rest h
    simp [parseF] at h
  | succ fuel ih =>
    intro job ts r rest h
    cases job with
    | prim =>
      simp only [parseF] at h
      split at h
      · rename_i w rest0
        simp only [Except.ok.injEq, Prod.mk.injEq] at h
        refine ⟨[⟨.TPackage, w⟩], by simp [h.2], ?_⟩
        exact lastNL_cons _ _ (by simp) lastNL_nil
      · rename_i f t1 t2 rest0
        simp only [Except.ok.injEq, Prod.mk.injEq] at h
        refine ⟨[⟨.TFunc, f⟩, ⟨.TLeftParen, t1⟩, ⟨.TRightParen, t2⟩],
          by simp [h.2], ?_⟩
        refine lastNL_cons_ne_nil _ _ (by simp) (lastNL_cons_ne_nil _ _ (by simp) ?_)
        exact lastNL_cons _ _ (by simp) lastNL_nil
      · rename_i f t1 rest0 hneg
        split at h
        · rename_i as0 t2 rest2 heq
          simp only [Except.ok.injEq, Prod.mk.injEq] at h
          obtain ⟨pre, hpre, hnl⟩ := ih .args _ _ _ heq
          refine ⟨⟨.TFunc, f⟩ :: ⟨.TLeftParen, t1⟩ :: (pre ++ [⟨.TRightParen, t2⟩]),
            ?_, ?_⟩
          · rw [← h.2, hpre]
            simp
          · refine lastNL_cons_ne_nil _ _ (by simp) (lastNL_cons_ne_nil _ _ (by simp) ?_)
            exact lastNL_append _ _ hnl (lastNL_cons _ _ (by simp) lastNL_nil)
        · simp at h
        · simp at h
      · rename_i t1 rest0
        split at h
        · rename_i e t2 rest2 heq
          simp only [Except.ok.injEq, Prod.mk.injEq] at h
          obtain ⟨pre, hpre, hnl⟩ := ih .args _ _ _ heq
          refine ⟨⟨.TLeftParen, t1⟩ :: (pre ++ [⟨.TRightParen, t2⟩]), ?_, ?_⟩
          · rw [← h.2, hpre]
            simp
          · exact lastNL_cons_ne_nil _ _ (by simp)
              (lastNL_append _ _ hnl (lastNL_cons _ _ (by simp) lastNL_nil))
        · rename_i as0 t2 rest2 hneg2 heq
          simp only [Except.ok.injEq, Prod.mk.injEq] at h
          obtain ⟨pre, hpre, hnl⟩ := ih .args _ _ _ heq
          refine ⟨⟨.TLeftParen, t1⟩ :: (pre ++ [⟨.TRightParen, t2⟩]), ?_, ?_⟩
          · rw [← h.2, hpre]
            simp
          · exact lastNL_cons_ne_nil _ _ (by simp)
              (lastNL_append _ _ hnl (lastNL_cons _ _ (by simp) lastNL_nil))
        · simp at h
        · simp at h
      · simp at h
    | args =>
      simp only [parseF] at h
      split at h
      · rename_i e tc rest2 heq
        split at h
        · rename_i es rest3 heq2
          simp only [Except.ok.injEq, Prod.mk.injEq] at h
          obtain ⟨pre1, hpre1, hnl1⟩ := ih .expr _ _ _ heq
          obtain ⟨pre2, hpre2, hnl2⟩ := ih .args _ _ _ heq2
          refine ⟨pre1 ++ (⟨.TComma, tc⟩ :: pre2), ?_, ?_⟩
          · rw [← h.2, hpre1, hpre2]
            simp
          · exact lastNL_append _ _ hnl1 (lastNL_cons _ _ (by simp) hnl2)
        · simp at h
        · simp at h
      · rename_i e rest0 hneg heq
        simp only [Except.ok.injEq, Prod.mk.injEq] at h
        obtain ⟨pre, hpre, hnl⟩ := ih .expr _ _ _ heq
        exact ⟨pre, by rw [← h.2]; exact hpre, hnl⟩
      · simp at h
      · simp at h
    | term =>
      simp only [parseF] at h
      split at h
      · rename_i base rest0 heq
        obtain ⟨pre, hpre, hnl⟩ := ih .prim _ _ _ heq
        split at h
        · simp only [Except.ok.injEq, Prod.mk.injEq] at h
          exact ⟨pre, by rw [← h.2]; exact hpre, hnl⟩
        · rename_i tags rest2 hneg heq2
          simp only [Except.ok.injEq, Prod.mk.injEq] at h
          obtain ⟨sels, hs1, hs2⟩ := parseSelectors_span _ _ _ heq2
          refine ⟨pre ++ sels, ?_, ?_⟩
          · rw [← h.2, hpre, hs1]
            simp
          · refine lastNL_append _ _ hnl ?_
            intro tk htk
            rw [hs2 tk (List.mem_of_mem_getLast? htk)]
            simp
      · simp at h
      · simp at h
    | chain =>
      simp only [parseF] at h
      split at h
      · rename_i e rest0 heq
        obtain ⟨pre1, hpre1, hnl1⟩ := ih .term _ _ _ heq
        obtain ⟨pre2, hpre2, hnl2⟩ := ih (.chainRest e) _ _ _ h
        exact ⟨pre1 ++ pre2, by rw [hpre1, hpre2]; simp,
          lastNL_append _ _ hnl1 hnl2⟩
      · simp at h
      · simp at h
    | chainRest acc =>
      simp only [parseF] at h
      split at h
      · rename_i c rest0
        split at h
        · split at h
          · rename_i e2 rest2 heq
            obtain ⟨pre1, hpre1, hnl1⟩ := ih .term _ _ _ heq
            obtain ⟨pre2, hpre2, hnl2⟩ := ih (.chainRest _) _ _ _ h
            refine ⟨⟨.TOp, [c]⟩ :: (pre1 ++ pre2), ?_, ?_⟩
            · rw [hpre1, hpre2]
              simp
            · exact lastNL_cons _ _ (by simp) (lastNL_append _ _ hnl1 hnl2)
          · simp at h
          · simp at h
        · simp at h
      · simp at h
      · simp only [Except.ok.injEq, Prod.mk.injEq] at h
        exact ⟨[], by simp [h.2], lastNL_nil⟩
    | expr =>
      simp only [parseF] at h
      split at h
      · rename_i e rest0 heq
        obtain ⟨pre1, hpre1, hnl1⟩ := ih .chain _ _ _ heq
        obtain ⟨pre2, hpre2, hnl2⟩ := ih (.exprRest [e]) _ _ _ h
        exact ⟨pre1 ++ pre2, by rw [hpre1, hpre2]; simp,
          lastNL_append _ _ hnl1 hnl2⟩
      · simp at h
      · simp at h
    | exprRest acc =>
      simp only [parseF] at h
      split at h
      · split at h
        · rename_i e rest0 heq
          obtain ⟨pre1, hpre1, hnl1⟩ := ih .chain _ _ _ heq
          obtain ⟨pre2, hpre2, hnl2⟩ := ih (.exprRest _) _ _ _ h
          exact ⟨pre1 ++ pre2, by rw [hpre1, hpre2]; simp,
            lastNL_append _ _ hnl1 hnl2⟩
        · simp at h
        · simp at h
      · split at h
        · simp only [Except.ok.injEq, Prod.mk.injEq] at h
          exact ⟨[], by simp [h.2], lastNL_nil⟩
        · simp only [Except.ok.injEq, Prod.mk.injEq] at h
          exact ⟨[], by simp [h.2], lastNL_nil⟩
    | stmt =>
      simp only [parseF] at h
      split at h
      · rename_i n t1 rest0
        split at h
        · rename_i v rest2 heq
          simp only [Except.ok.injEq, Prod.mk.injEq] at h
          obtain ⟨pre, hpre, hnl⟩ := ih .expr _ _ _ heq
          refine ⟨⟨.TPackage, n⟩ :: ⟨.TAssign, t1⟩ :: pre, ?_, ?_⟩
          · rw [← h.2, hpre]
            simp
          · exact lastNL_cons _ _ (by simp) (lastNL_cons _ _ (by simp) hnl)
        · simp at h
        · simp at h
      · exact ih .expr _ _ _ h
    | prog =>
      simp only [parseF] at h
      split at h
      · rename_i s tc rest2 heq
        split at h
        · rename_i ss rest3 heq2
          simp only [Except.ok.injEq, Prod.mk.injEq] at h
          obtain ⟨pre1, hpre1, hnl1⟩ := ih .stmt _ _ _ heq
          obtain ⟨pre2, hpre2, hnl2⟩ := ih .prog _ _ _ heq2
          refine ⟨pre1 ++ (⟨.TSemicolon, tc⟩ :: pre2), ?_, ?_⟩
          · rw [← h.2, hpre1, hpre2]
            simp
          · exact lastNL_append _ _ hnl1 (lastNL_cons _ _ (by simp) hnl2)
        · simp at h
        · simp at h
      · rename_i s rest0 hneg heq
        simp only [Except.ok.injEq, Prod.mk.injEq] at h
        obtain ⟨pre, hpre, hnl⟩ := ih .stmt _ _ _ heq
        exact ⟨pre, by rw [← h.2]; exact hpre, hnl⟩
      · simp at h
      · simp at h

/-- C8: a token sequence ending in an unmatched `(` always makes `Parse`
return a parse error, never a silently truncated expression (a
successful parse consumes the entire sequence, and no consumed span ends
with a left parenthesis); and the modelled tokenizer's rules are total —
every character is covered by the whitespace, punctuation, colon, sign
or bare-word rule — so no character can fail to start a token and the
spec's lexical-error clause holds vacuously. -/
theorem c8_errors :
    (∀ (ts : List Token) (tk : Token), ts.getLast? = some tk →
      tk.kind = .TLeftParen → ∃ msg, Parse ts = .error msg) ∧
    (∀ c : Char, isWS c = true ∨ isPunctChar c = true ∨ c = ':' ∨ c = '+' ∨
      c = '-' ∨ isWordChar c = true) := by
  constructor
  · intro ts tk hlast hkind
    cases hp : Parse ts with
    | error msg => exact ⟨msg, rfl⟩
    | ok o =>
      exfalso
      cases ts with
      | nil => simp at hlast
      | cons t ts1 =>
        simp only [Parse] at hp
        split at hp
        · rename_i e heq
          obtain ⟨pre, hpre, hnl⟩ := parseF_consumed _ _ _ _ _ heq
          simp only [List.append_nil] at hpre
          rw [← hpre] at hnl
          exact hnl tk hlast hkind
        · rename_i ss hne2 heq
          obtain ⟨pre, hpre, hnl⟩ := parseF_consumed _ _ _ _ _ heq
          simp only [List.append_nil] at hpre
          rw [← hpre] at hnl
          exact hnl tk hlast hkind
        · simp at hp
        · simp at hp
        · simp at hp
  · intro c
    by_cases h : isBreakChar c = true
    · simp only [isBreakChar, Bool.or_eq_true_iff, decide_eq_true_eq] at h
      rcases h with ((h | h) | h) | h
      · exact Or.inl h
      · exact Or.inr (Or.inl h)
      · exact Or.inr (Or.inr (Or.inl h))
      · exact Or.inr (Or.inr (Or.inr (Or.inl h)))
    · refine Or.inr (Or.inr (Or.inr (Or.inr (Or.inr ?_))))
      simp [isWordChar, h]

/-! ## Round-trip (C1): structure of the canonical printer, the
canonical token lists, and the reparse normal form. -/

theorem printTags_append (a b : List (List Char)) :
    printTags (a ++ b) = printTags a ++ printTags b := by
  induction a with
  | nil => simp [printTags]
  | cons t ts ih => simp [printTags, ih]

theorem normArgs_length (l : List Expr) : (normArgs l).length = l.length := by
  induction l with
  | nil => rfl
  | cons e es ih => simp [normArgs, ih]

theorem printE_sel_eq (x : Expr) (tags : List (List Char)) :
    printE (Expr.Selected x tags) = printE x ++ printTags tags := by
  simp [printE]

theorem printE_normE_bundle : ∀ n : Nat,
    (∀ e : Expr, sizeOf e ≤ n → printE (normE e) = printE e) ∧
    (∀ l : List Expr, sizeOf l ≤ n → printArgs (normArgs l) = printArgs l) ∧
    (∀ l : List Expr, sizeOf l ≤ n → printStmts (normArgs l) = printStmts l) := by
  intro n
  induction n with
  | zero =>
    refine ⟨fun e h => ?_, fun l h => ?_, fun l h => ?_⟩
    · cases e <;> simp at h
    · cases l <;> simp at h
    · cases l <;> simp at h
  | succ n ih =>
    refine ⟨fun e hsz => ?_, fun l hsz => ?_, fun l hsz => ?_⟩
    · cases e with
      | PackageRef w => rfl
      | Selected b tags =>
        have hb : sizeOf b ≤ n := by simp at hsz; omega
        have key : printE (normE b) = printE b := ih.1 b hb
        simp only [normE]
        cases hnb : normE b with
        | Selected b2 t2 =>
          rw [hnb] at key
          simp only [printE] at key ⊢
          rw [printTags_append, ← List.append_assoc, key]
        | PackageRef w2 =>
          simp only [hnb]
          rw [printE_sel_eq, ← hnb, key]
          exact (printE_sel_eq b tags).symm
        | BinaryOp op2 l2 r2 =>
          simp only [hnb]
          rw [printE_sel_eq, ← hnb, key]
          exact (printE_sel_eq b tags).symm
        | Call n2 args2 =>
          simp only [hnb]
          rw [printE_sel_eq, ← hnb, key]
          exact (printE_sel_eq b tags).symm
        | Assignment n2 v2 =>
          simp only [hnb]
          rw [printE_sel_eq, ← hnb, key]
          exact (printE_sel_eq b tags).symm
        | Program ss2 =>
          simp only [hnb]
          rw [printE_sel_eq, ← hnb, key]
          exact (printE_sel_eq b tags).symm
      | BinaryOp op l r =>
        have hl : sizeOf l ≤ n := by simp at hsz; omega
        have hr : sizeOf r ≤ n := by simp at hsz; omega
        simp [normE, printE, printArgs, ih.1 l hl, ih.1 r hr]
      | Call nm args =>
        have ha : sizeOf args ≤ n := by simp at hsz; omega
        simp [normE, printE, ih.2.1 args ha]
      | Assignment nm v =>
        have hv : sizeOf v ≤ n := by simp at hsz; omega
        simp [normE, printE, ih.1 v hv]
      | Program ss =>
        have hs : sizeOf ss ≤ n := by simp at hsz; omega
        simp [normE, printE, ih.2.2 ss hs]
    · cases l with
      | nil => rfl
      | cons e es =>
        have he : sizeOf e ≤ n := by simp at hsz; omega
        cases es with
        | nil => simp [normArgs, printArgs, ih.1 e he]
        | cons e2 es2 =>
          have hes : sizeOf (e2 :: es2) ≤ n := by simp at hsz ⊢; omega
          have := ih.2.1 (e2 :: es2) hes
          simp only [normArgs] at this ⊢
          simp [printArgs, ih.1 e he, this]
    · cases l with
      | nil => rfl
      | cons e es =>
        have he : sizeOf e ≤ n := by simp at hsz; omega
        cases es with
        | nil => simp [normArgs, printStmts, ih.1 e he]
        | cons e2 es2 =>
          have hes : sizeOf (e2 :: es2) ≤ n := by simp at hsz ⊢; omega
          have := ih.2.2 (e2 :: es2) hes
          simp only [normArgs] at this ⊢
          simp [printStmts, ih.1 e he, this]

theorem printE_normE (e : Expr) : printE (normE e) = printE e :=
  (printE_normE_bundle (sizeOf e)).1 e (Nat.le_refl _)

theorem toksE_selBase : ∀ (n : Nat) (e : Expr), sizeOf e ≤ n →
    toksE e = toksE (selBase e) ++
      (selTags e).map (fun t => (⟨.TSelector, t⟩ : Token)) := by
  intro n
  induction n with
  | zero => intro e h; cases e <;> simp at h
  | succ n ih =>
    intro e hsz
    cases e with
    | Selected b tags =>
      have hb : sizeOf b ≤ n := by simp at hsz; omega
      simp only [toksE, selBase, selTags]
      rw [ih b hb]
      simp
    | PackageRef w => simp [selBase, selTags]
    | BinaryOp op l r => simp [selBase, selTags]
    | Call nm args => simp [selBase, selTags]
    | Assignment nm v => simp [selBase, selTags]
    | Program ss => simp [selBase, selTags]

theorem selBase_facts (e : Expr) (h : EWF e) :
    EWF (selBase e) ∧ ∀ b tags, selBase e ≠ .Selected b tags := by
  induction h with
  | pkg w hw => exact ⟨EWF.pkg w hw, by simp [selBase]⟩
  | bin op l r hop hl hr ihl ihr =>
    exact ⟨EWF.bin op l r hop hl hr, by simp [selBase]⟩
  | call nm args hn hlen hargs ih =>
    exact ⟨EWF.call nm args hn hlen hargs, by simp [selBase]⟩
  | sel b tags hb htags htag ih => simpa [selBase] using ih

theorem normE_nonsel (b : Expr) (hb : ∀ b2 t2, b ≠ Expr.Selected b2 t2) :
    ∀ b2 t2, normE b ≠ Expr.Selected b2 t2 := by
  cases b with
  | Selected b2 t2 => exact absurd rfl (hb b2 t2)
  | PackageRef w => simp [normE]
  | BinaryOp op l r => simp [normE]
  | Call nm args => simp [normE]
  | Assignment nm v => simp [normE]
  | Program ss => simp [normE]

theorem normE_selView (e : Expr) (h : EWF e) :
    (selTags e = [] ∧ selBase e = e) ∨
    (selTags e ≠ [] ∧ normE e = .Selected (normE (selBase e)) (selTags e)) := by
  induction h with
  | pkg w hw => exact Or.inl ⟨rfl, rfl⟩
  | bin op l r hop hl hr ihl ihr => exact Or.inl ⟨rfl, rfl⟩
  | call nm args hn hlen hargs ih => exact Or.inl ⟨rfl, rfl⟩
  | sel b tags hb htags htag ih =>
    refine Or.inr ⟨?_, ?_⟩
    · simp [selTags, htags]
    · rcases ih with ⟨h1, h2⟩ | ⟨h1, h2⟩
      · have hbnc : ∀ b2 t2, b ≠ Expr.Selected b2 t2 := by
          intro b2 t2 hbe
          subst hbe
          cases hb with
          | sel _ _ hb2 ht2 htag2 =>
            simp only [selTags, List.append_eq_nil] at h1
            exact ht2 h1.2
        have hnn := normE_nonsel b hbnc
        simp only [normE]
        cases hnb : normE b with
        | Selected b2 t2 => exact absurd hnb (hnn b2 t2)
        | PackageRef w2 =>
          simp only [selBase, selTags, h1, h2, List.nil_append, hnb]
        | BinaryOp op2 l2 r2 =>
          simp only [selBase, selTags, h1, h2, List.nil_append, hnb]
        | Call n2 args2 =>
          simp only [selBase, selTags, h1, h2, List.nil_append, hnb]
        | Assignment n2 v2 =>
          simp only [selBase, selTags, h1, h2, List.nil_append, hnb]
        | Program ss2 =>
          simp only [selBase, selTags, h1, h2, List.nil_append, hnb]
      · simp only [normE, h2]
        simp [selBase, selTags]

theorem toksE_head (e : Expr) (h : EWF e) :
    ∃ kd txt rest0, toksE e = ⟨kd, txt⟩ :: rest0 ∧
      ((kd = .TPackage ∧
        (rest0 = [] ∨ ∃ t r1, rest0 = ⟨.TSelector, t⟩ :: r1)) ∨
       kd = .TFunc ∨ kd = .TLeftParen) := by
  induction h with
  | pkg w hw =>
    exact ⟨.TPackage, w, [], rfl, Or.inl ⟨rfl, Or.inl rfl⟩⟩
  | bin op l r hop hl hr ihl ihr =>
    exact ⟨.TFunc, [op], _, rfl, Or.inr (Or.inl rfl)⟩
  | call nm args hn hlen hargs ih =>
    cases hni : nm.isEmpty with
    | true =>
      refine ⟨.TLeftParen, ['('], toksArgs args ++ [⟨.TRightParen, [')']⟩], ?_,
        Or.inr (Or.inr rfl)⟩
      simp [toksE, hni]
    | false =>
      refine ⟨.TFunc, nm,
        ⟨.TLeftParen, ['(']⟩ :: (toksArgs args ++ [⟨.TRightParen, [')']⟩]), ?_,
        Or.inr (Or.inl rfl)⟩
      simp [toksE, hni]
  | sel b tags hb htags htag ih =>
    obtain ⟨kd, txt, rest0, heq, hkd⟩ := ih
    refine ⟨kd, txt, rest0 ++ tags.map (fun t => (⟨.TSelector, t⟩ : Token)),
      by simp [toksE, heq], ?_⟩
    rcases hkd with ⟨hp, hr0⟩ | hf | hl
    · refine Or.inl ⟨hp, ?_⟩
      rcases hr0 with h0 | ⟨t, r1, h0⟩
      · subst h0
        cases tags with
        | nil => exact absurd rfl htags
        | cons t ts =>
          exact Or.inr ⟨t, List.map (fun x => (⟨.TSelector, x⟩ : Token)) ts, by simp⟩
      · subst h0
        exact Or.inr ⟨t, r1 ++ List.map (fun x => (⟨.TSelector, x⟩ : Token)) tags,
          by simp⟩
    · exact Or.inr (Or.inl hf)
    · exact Or.inr (Or.inr hl)

theorem toksE_ne_nil (e : Expr) (h : EWF e) : toksE e ≠ [] := by
  obtain ⟨kd, txt, rest0, heq, _⟩ := toksE_head e h
  simp [heq]

/-! ## Round-trip (C1): small parser exit lemmas at token boundaries. -/

theorem parseSelectors_boundary (rest : List Token) (h : tokBoundary rest = true) :
    parseSelectors rest = ([], rest) := by
  cases rest with
  | nil => rfl
  | cons t r =>
    obtain ⟨k, txt⟩ := t
    cases k <;> first | rfl | simp [tokBoundary] at h

theorem startsTerm_boundary (rest : List Token) (h : tokBoundary rest = true) :
    startsTerm rest = false := by
  cases rest with
  | nil => rfl
  | cons t r =>
    obtain ⟨k, txt⟩ := t
    cases k <;> first | rfl | simp [tokBoundary] at h

theorem parseSelectors_map (tags : List (List Char)) (rest : List Token)
    (h : tokBoundary rest = true) :
    parseSelectors (tags.map (fun t => (⟨.TSelector, t⟩ : Token)) ++ rest) =
      (tags, rest) := by
  induction tags with
  | nil => simpa using parseSelectors_boundary rest h
  | cons t ts ih => simp [parseSelectors, ih]

theorem chainRest_bd (g : Nat) (acc : Expr) (rest : List Token) (hg : 1 ≤ g)
    (h : tokBoundary rest = true) :
    parseF g (.chainRest acc) rest = .ok (.one acc, rest) := by
  obtain ⟨g2, rfl⟩ : ∃ g2, g = g2 + 1 := ⟨g - 1, by omega⟩
  cases rest with
  | nil => rfl
  | cons t r =>
    obtain ⟨k, txt⟩ := t
    cases k <;> first | rfl | simp [tokBoundary] at h

theorem exprRest_single (g : Nat) (e : Expr) (rest : List Token) (hg : 1 ≤ g)
    (h : startsTerm rest = false) :
    parseF g (.exprRest [e]) rest = .ok (.one e, rest) := by
  obtain ⟨g2, rfl⟩ : ∃ g2, g = g2 + 1 := ⟨g - 1, by omega⟩
  simp [parseF, h]

/-! ## Round-trip (C1): tokenizing a canonical rendering yields the
canonical token list. -/

theorem sign_or (op : Char) (hop : op = '+' ∨ op = '-') :
    (op = '+' || op = '-') = true := by
  rcases hop with h | h <;> simp [h]

theorem tok_printE_bundle : ∀ n : Nat,
    (∀ e : Expr, sizeOf e ≤ n → EWF e → ∀ rest : List Char, sepB rest = true →
      tok (printE e ++ rest) = toksE e ++ tok rest) ∧
    (∀ l : List Expr, sizeOf l ≤ n → (∀ a ∈ l, EWF a) →
      ∀ rest : List Char, sepB rest = true →
      tok (printArgs l ++ rest) = toksArgs l ++ tok rest) := by
  intro n
  induction n with
  | zero =>
    refine ⟨fun e h => ?_, fun l h => ?_⟩
    · cases e <;> simp at h
    · cases l <;> simp at h
  | succ n ih =>
    refine ⟨fun e hsz hwf rest hrest => ?_, fun l hsz hall rest hrest => ?_⟩
    · cases e with
      | PackageRef w =>
        cases hwf with
        | pkg _ hw =>
          simp only [printE, toksE]
          exact tok_word_pkg_app w rest hw hrest
      | Selected b tags =>
        cases hwf with
        | sel _ _ hb htags htag =>
          have hszb : sizeOf b ≤ n := by simp at hsz; omega
          simp only [printE, toksE, List.append_assoc]
          rw [ih.1 b hszb hb (printTags tags ++ rest) (sepB_printTags tags rest hrest),
            tok_tags_app tags rest htag hrest]
      | BinaryOp op l r =>
        cases hwf with
        | bin _ _ _ hop hl hr =>
          have hszl : sizeOf l ≤ n := by simp at hsz; omega
          have hszr : sizeOf r ≤ n := by simp at hsz; omega
          have hstep : printE (Expr.BinaryOp op l r) ++ rest =
              op :: '(' :: (printE l ++ (',' :: ' ' :: (printE r ++ (')' :: rest)))) := by
            simp [printE]
          rw [hstep, tok_sign_cons op _ (sign_or op hop)]
          simp only [List.head?_cons, if_pos rfl]
          rw [tok_lparen,
            ih.1 l hszl hl (',' :: ' ' :: (printE r ++ (')' :: rest))) (by simp [sepB]),
            tok_comma, tok_ws_cons ' ' _ (by decide),
            ih.1 r hszr hr (')' :: rest) (by simp [sepB]), tok_rparen]
          simp [toksE]
      | Call nm args =>
        cases hwf with
        | call _ _ hn hlen hargs =>
          have hsza : sizeOf args ≤ n := by simp at hsz; omega
          have hn2 : ((nm = [] ∨ nm = ['+']) ∨ nm = ['-']) ∨ wordOKB nm = true := by
            simpa [callNameOK, Bool.or_eq_true_iff, List.isEmpty_iff] using hn
          have hbody : ∀ pre : List Char, pre = '(' :: (printArgs args ++ (')' :: rest)) →
              tok pre = ⟨.TLeftParen, ['(']⟩ ::
                (toksArgs args ++ ⟨.TRightParen, [')']⟩ :: tok rest) := by
            intro pre hpre
            subst hpre
            rw [tok_lparen, ih.2 args hsza hargs (')' :: rest) (by simp [sepB]),
              tok_rparen]
          rcases hn2 with ((h0 | h0) | h0) | h0
          · subst h0
            have hstep : printE (Expr.Call [] args) ++ rest =
                '(' :: (printArgs args ++ (')' :: rest)) := by
              simp [printE]
            rw [hstep, hbody _ rfl]
            simp [toksE]
          · subst h0
            have hstep : printE (Expr.Call ['+'] args) ++ rest =
                '+' :: ('(' :: (printArgs args ++ (')' :: rest))) := by
              simp [printE]
            rw [hstep, tok_sign_cons '+' _ (by decide)]
            simp only [List.head?_cons, if_pos rfl]
            rw [hbody _ rfl]
            simp [toksE]
          · subst h0
            have hstep : printE (Expr.Call ['-'] args) ++ rest =
                '-' :: ('(' :: (printArgs args ++ (')' :: rest))) := by
              simp [printE]
            rw [hstep, tok_sign_cons '-' _ (by decide)]
            simp only [List.head?_cons, if_pos rfl]
            rw [hbody _ rfl]
            simp [toksE]
          · have hstep : printE (Expr.Call nm args) ++ rest =
                nm ++ ('(' :: (printArgs args ++ (')' :: rest))) := by
              simp [printE]
            rw [hstep, tok_word_func_app nm _ h0 (by simp), hbody _ rfl]
            have hne : nm.isEmpty = false := by
              obtain ⟨h1, _, _⟩ := wordOKB_parts nm h0
              simpa [List.isEmpty_iff] using h1
            simp [toksE, hne]
      | Assignment nm v => cases hwf
      | Program ss => cases hwf
    · cases l with
      | nil => simp [printArgs, toksArgs]
      | cons e es =>
        have hsze : sizeOf e ≤ n := by simp at hsz; omega
        have he := hall e (by simp)
        cases es with
        | nil =>
          simp only [printArgs, toksArgs]
          exact ih.1 e hsze he rest hrest
        | cons e2 es2 =>
          have hszt : sizeOf (e2 :: es2) ≤ n := by simp at hsz ⊢; omega
          have hstep : printArgs (e :: e2 :: es2) ++ rest =
              printE e ++ (',' :: ' ' :: (printArgs (e2 :: es2) ++ rest)) := by
            simp [printArgs]
          rw [hstep, ih.1 e hsze he _ (by simp [sepB]), tok_comma,
            tok_ws_cons ' ' _ (by decide),
            ih.2 (e2 :: es2) hszt (fun a ha => hall a (by simp [ha])) rest hrest]
          simp [toksArgs]

theorem tok_printE_app (e : Expr) (h : EWF e) (rest : List Char)
    (hrest : sepB rest = true) :
    tok (printE e ++ rest) = toksE e ++ tok rest :=
  (tok_printE_bundle (sizeOf e)).1 e (Nat.le_refl _) h rest hrest

theorem tok_printStmt (e : Expr) (h : StmtWF e) (rest : List Char)
    (hrest : sepB rest = true) :
    tok (printE e ++ rest) = toksE e ++ tok rest := by
  cases h with
  | expr _ he => exact tok_printE_app e he rest hrest
  | assign nm v hn hv =>
    have hstep : printE (Expr.Assignment nm v) ++ rest =
        nm ++ (' ' :: ':' :: '=' :: ' ' :: (printE v ++ rest)) := by
      simp [printE]
    rw [hstep, tok_word_pkg_brk nm (' ' :: ':' :: '=' :: ' ' :: (printE v ++ rest)) hn rfl (by simp),
      tok_ws_cons ' ' _ (by decide), tok_assign, tok_ws_cons ' ' _ (by decide),
      tok_printE_app v hv rest hrest]
    simp [toksE]

theorem tok_printStmts (ss : List Expr) (h : ∀ s ∈ ss, StmtWF s)
    (rest : List Char) (hrest : sepB rest = true) :
    tok (printStmts ss ++ rest) = toksStmts ss ++ tok rest := by
  induction ss with
  | nil => simp [printStmts, toksStmts]
  | cons e es ih =>
    have he := h e (by simp)
    cases es with
    | nil =>
      simp only [printStmts, toksStmts]
      exact tok_printStmt e he rest hrest
    | cons e2 es2 =>
      have hstep : printStmts (e :: e2 :: es2) ++ rest =
          printE e ++ (';' :: ' ' :: (printStmts (e2 :: es2) ++ rest)) := by
        simp [printStmts]
      rw [hstep, tok_printStmt e he _ (by simp [sepB]), tok_semi,
        tok_ws_cons ' ' _ (by decide), ih (fun s hs => h s (by simp [hs]))]
      simp [toksStmts]

theorem tok_printE_top (e : Expr) (h : TopWF e) : tok (printE e) = toksE e := by
  cases h with
  | single _ hs =>
    have := tok_printStmt e hs [] rfl
    simpa [tok_nil] using this
  | program ss hlen hss =>
    have := tok_printStmts ss hss [] rfl
    simp only [List.append_nil, tok_nil] at this
    simpa [printE, toksE] using this

/-! ## Round-trip (C1): parsing a canonical token list reproduces the
reparse normal form, with explicit fuel accounting. -/

theorem selBase_sizeOf_le : ∀ (n : Nat) (e : Expr), sizeOf e ≤ n →
    sizeOf (selBase e) ≤ sizeOf e := by
  intro n
  induction n with
  | zero => intro e h; cases e <;> simp at h
  | succ n ih =>
    intro e h
    cases e with
    | Selected b tags =>
      have hb : sizeOf b ≤ n := by simp at h; omega
      have := ih b hb
      simp only [selBase]
      have hlt : sizeOf b ≤ sizeOf (Expr.Selected b tags) := by simp; omega
      omega
    | PackageRef w => simp [selBase]
    | BinaryOp op l r => simp [selBase]
    | Call nm args => simp [selBase]
    | Assignment nm v => simp [selBase]
    | Program ss => simp [selBase]

theorem parseF_toks_bundle : ∀ n : Nat,
    (∀ e : Expr, sizeOf e ≤ n → EWF e → (∀ b tags, e ≠ Expr.Selected b tags) →
      ∀ (fuel : Nat) (rest : List Token), 8 * (toksE e).length ≤ fuel →
      parseF fuel .prim (toksE e ++ rest) = .ok (.one (normE e), rest)) ∧
    (∀ l : List Expr, sizeOf l ≤ n → l ≠ [] → (∀ a ∈ l, EWF a) →
      ∀ (fuel : Nat) (t2 : List Char) (r2 : List Token),
        8 * (toksArgs l).length + 8 ≤ fuel →
      parseF fuel .args (toksArgs l ++ ⟨.TRightParen, t2⟩ :: r2) =
        .ok (.many (normArgs l), ⟨.TRightParen, t2⟩ :: r2)) ∧
    (∀ e : Expr, sizeOf e ≤ n → EWF e →
      ∀ (fuel : Nat) (rest : List Token), 8 * (toksE e).length + 6 ≤ fuel →
        tokBoundary rest = true →
      parseF fuel .expr (toksE e ++ rest) = .ok (.one (normE e), rest)) := by
  intro n
  induction n with
  | zero =>
    refine ⟨fun e h => ?_, fun l h => ?_, fun e h => ?_⟩
    · cases e <;> simp at h
    · cases l <;> simp at h
    · cases e <;> simp at h
  | succ n ih =>
    have hprim : ∀ e : Expr, sizeOf e ≤ n + 1 → EWF e →
        (∀ b tags, e ≠ Expr.Selected b tags) →
        ∀ (fuel : Nat) (rest : List Token), 8 * (toksE e).length ≤ fuel →
        parseF fuel .prim (toksE e ++ rest) = .ok (.one (normE e), rest) := by
      intro e hsz hwf hns fuel rest hfuel
      cases e with
      | Selected b tags => exact absurd rfl (hns b tags)
      | Assignment nm v => cases hwf
      | Program ss => cases hwf
      | PackageRef w =>
        obtain ⟨g, rfl⟩ : ∃ g, fuel = g + 1 :=
          ⟨fuel - 1, by simp [toksE] at hfuel; omega⟩
        simp [toksE, parseF, normE]
      | BinaryOp op l r =>
        cases hwf with
        | bin _ _ _ hop hl hr =>
          have hsl : sizeOf l ≤ n := by simp at hsz; omega
          have hsr : sizeOf r ≤ n := by simp at hsz; omega
          have hlen : (toksE (Expr.BinaryOp op l r)).length =
              (toksE l).length + (toksE r).length + 4 := by
            simp [toksE]
            omega
          rw [hlen] at hfuel
          obtain ⟨g, rfl⟩ : ∃ g, fuel = g + 1 := ⟨fuel - 1, by omega⟩
          obtain ⟨g1, hg1⟩ : ∃ g1, g = g1 + 1 := ⟨g - 1, by omega⟩
          obtain ⟨g2, hg2⟩ : ∃ g2, g1 = g2 + 1 := ⟨g1 - 1, by omega⟩
          have hL := ih.2.2 l hsl hl g1
            (⟨.TComma, [',']⟩ :: (toksE r ++ (⟨.TRightParen, [')']⟩ :: rest)))
            (by omega) rfl
          have hR := ih.2.2 r hsr hr g2 (⟨.TRightParen, [')']⟩ :: rest)
            (by omega) rfl
          have hargs2 : parseF g .args
              (toksE l ++ (⟨.TComma, [',']⟩ ::
                (toksE r ++ (⟨.TRightParen, [')']⟩ :: rest)))) =
              .ok (.many [normE l, normE r], ⟨.TRightParen, [')']⟩ :: rest) := by
            rw [hg1]
            simp only [parseF]
            simp only [hL]
            rw [hg2]
            simp only [parseF]
            simp only [hR]
          obtain ⟨kd, txt, rest0, hhead, hkinds⟩ := toksE_head l hl
          have hts : toksE (Expr.BinaryOp op l r) ++ rest =
              ⟨.TFunc, [op]⟩ :: ⟨.TLeftParen, ['(']⟩ ::
                (toksE l ++ (⟨.TComma, [',']⟩ ::
                  (toksE r ++ (⟨.TRightParen, [')']⟩ :: rest)))) := by
            simp [toksE]
          rw [hts]
          rw [hhead] at hargs2 ⊢
          simp only [List.cons_append] at hargs2 ⊢
          rcases hkinds with ⟨hkd, _⟩ | hkd | hkd <;> subst hkd <;>
            simp only [parseF] <;> rw [hargs2] <;> simp [normE]
      | Call nm args =>
        cases hwf with
        | call _ _ hn hlenN hargsWF =>
          have hsa : sizeOf args ≤ n := by simp at hsz; omega
          cases args with
          | nil =>
            have hne : nm ≠ [] := by
              intro h0
              have := hlenN h0
              simp at this
            have hni : nm.isEmpty = false := by simpa [List.isEmpty_iff] using hne
            have hts : toksE (Expr.Call nm []) ++ rest =
                ⟨.TFunc, nm⟩ :: ⟨.TLeftParen, ['(']⟩ ::
                  ⟨.TRightParen, [')']⟩ :: rest := by
              simp [toksE, toksArgs, hni]
            have hlen3 : (toksE (Expr.Call nm [])).length = 3 := by
              simp [toksE, toksArgs, hni]
            rw [hlen3] at hfuel
            obtain ⟨g, rfl⟩ : ∃ g, fuel = g + 1 := ⟨fuel - 1, by omega⟩
            rw [hts]
            simp [parseF, normE, normArgs]
          | cons a as =>
            cases hni : nm.isEmpty with
            | true =>
              have hnm : nm = [] := List.isEmpty_iff.mp hni
              subst hnm
              have hlen2 : 2 ≤ (a :: as).length := hlenN rfl
              have hlen : (toksE (Expr.Call [] (a :: as))).length =
                  (toksArgs (a :: as)).length + 2 := by simp [toksE]
              rw [hlen] at hfuel
              obtain ⟨g, rfl⟩ : ∃ g, fuel = g + 1 := ⟨fuel - 1, by omega⟩
              have hargsC := ih.2.1 (a :: as) hsa (by simp) hargsWF g [')'] rest
                (by omega)
              have hts : toksE (Expr.Call [] (a :: as)) ++ rest =
                  ⟨.TLeftParen, ['(']⟩ ::
                    (toksArgs (a :: as) ++ ⟨.TRightParen, [')']⟩ :: rest) := by
                simp [toksE]
              rw [hts]
              simp only [parseF]
              rw [hargsC]
              have hnl : (normArgs (a :: as)).length = (a :: as).length :=
                normArgs_length _
              cases hna : normArgs (a :: as) with
              | nil => rw [hna] at hnl; simp at hnl
              | cons x t =>
                cases t with
                | nil =>
                  rw [hna] at hnl
                  simp at hnl
                  subst hnl
                  simp at hlen2
                | cons y zs => simp [normE, hna]
            | false =>
              have hlen : (toksE (Expr.Call nm (a :: as))).length =
                  (toksArgs (a :: as)).length + 3 := by simp [toksE, hni]
              rw [hlen] at hfuel
              obtain ⟨g, rfl⟩ : ∃ g, fuel = g + 1 := ⟨fuel - 1, by omega⟩
              have hargsC := ih.2.1 (a :: as) hsa (by simp) hargsWF g [')'] rest
                (by omega)
              obtain ⟨kd, txt, rest0, hhead, hkinds⟩ :=
                toksE_head a (hargsWF a (by simp))
              have hAshape : ∃ T, toksArgs (a :: as) = ⟨kd, txt⟩ :: T := by
                cases as with
                | nil => exact ⟨rest0, by simp [toksArgs, hhead]⟩
                | cons a2 as2 =>
                  exact ⟨rest0 ++ ⟨.TComma, [',']⟩ :: toksArgs (a2 :: as2),
                    by simp [toksArgs, hhead]⟩
              obtain ⟨T, hT⟩ := hAshape
              have hts : toksE (Expr.Call nm (a :: as)) ++ rest =
                  ⟨.TFunc, nm⟩ :: ⟨.TLeftParen, ['(']⟩ ::
                    (toksArgs (a :: as) ++ ⟨.TRightParen, [')']⟩ :: rest) := by
                simp [toksE, hni]
              rw [hts]
              rw [hT] at hargsC ⊢
              simp only [List.cons_append] at hargsC ⊢
              rcases hkinds with ⟨hkd, _⟩ | hkd | hkd <;> subst hkd <;>
                simp only [parseF] <;> rw [hargsC] <;> simp [normE]
    have hargs : ∀ l : List Expr, sizeOf l ≤ n + 1 → l ≠ [] →
        (∀ a ∈ l, EWF a) →
        ∀ (fuel : Nat) (t2 : List Char) (r2 : List Token),
          8 * (toksArgs l).length + 8 ≤ fuel →
        parseF fuel .args (toksArgs l ++ ⟨.TRightParen, t2⟩ :: r2) =
          .ok (.many (normArgs l), ⟨.TRightParen, t2⟩ :: r2) := by
      intro l hsz hne hall fuel t2 r2 hfuel
      obtain ⟨g, rfl⟩ : ∃ g, fuel = g + 1 := ⟨fuel - 1, by omega⟩
      cases l with
      | nil => exact absurd rfl hne
      | cons a as =>
        have hsza : sizeOf a ≤ n := by simp at hsz; omega
        have ha := hall a (by simp)
        cases as with
        | nil =>
          have hE := ih.2.2 a hsza ha g (⟨.TRightParen, t2⟩ :: r2)
            (by simp only [toksArgs] at hfuel; omega) rfl
          simp only [toksArgs, normArgs]
          simp only [parseF]
          simp only [hE]
        | cons a2 as2 =>
          have hszt : sizeOf (a2 :: as2) ≤ n := by simp at hsz ⊢; omega
          have hlenEq : (toksArgs (a :: a2 :: as2)).length =
              (toksE a).length + 1 + (toksArgs (a2 :: as2)).length := by
            simp [toksArgs]
            omega
          rw [hlenEq] at hfuel
          have htail := ih.2.1 (a2 :: as2) hszt (by simp)
            (fun x hx => hall x (by simp [hx])) g t2 r2 (by omega)
          have hE := ih.2.2 a hsza ha g
            (⟨.TComma, [',']⟩ :: (toksArgs (a2 :: as2) ++ ⟨.TRightParen, t2⟩ :: r2))
            (by omega) rfl
          have hts : toksArgs (a :: a2 :: as2) ++ ⟨.TRightParen, t2⟩ :: r2 =
              toksE a ++ (⟨.TComma, [',']⟩ ::
                (toksArgs (a2 :: as2) ++ ⟨.TRightParen, t2⟩ :: r2)) := by
            simp [toksArgs]
          rw [hts]
          simp only [parseF]
          simp only [hE]
          simp only [htail]
          simp [normArgs]
    have hexpr : ∀ e : Expr, sizeOf e ≤ n + 1 → EWF e →
        ∀ (fuel : Nat) (rest : List Token), 8 * (toksE e).length + 6 ≤ fuel →
        tokBoundary rest = true →
        parseF fuel .expr (toksE e ++ rest) = .ok (.one (normE e), rest) := by
      intro e hsz hwf fuel rest hfuel hbd
      obtain ⟨g, rfl⟩ : ∃ g, fuel = g + 1 := ⟨fuel - 1, by omega⟩
      obtain ⟨g1, hg1⟩ : ∃ g1, g = g1 + 1 := ⟨g - 1, by omega⟩
      obtain ⟨g2, hg2⟩ : ∃ g2, g1 = g2 + 1 := ⟨g1 - 1, by omega⟩
      have hflat := toksE_selBase (sizeOf e) e (Nat.le_refl _)
      have hlenB : (toksE (selBase e)).length ≤ (toksE e).length := by
        rw [hflat]
        simp
      obtain ⟨hewfB, hnsB⟩ := selBase_facts e hwf
      have hp := hprim (selBase e)
        (le_trans (selBase_sizeOf_le (sizeOf e) e (Nat.le_refl _)) hsz) hewfB hnsB g2
        ((selTags e).map (fun t => (⟨.TSelector, t⟩ : Token)) ++ rest) (by omega)
      have hterm : parseF g1 .term (toksE e ++ rest) =
          .ok (.one (normE e), rest) := by
        rw [hg2]
        simp only [parseF]
        rw [show toksE e ++ rest = toksE (selBase e) ++
            ((selTags e).map (fun t => (⟨.TSelector, t⟩ : Token)) ++ rest) from by
          rw [hflat]; simp]
        rw [hp]
        rcases normE_selView e hwf with ⟨h1, h2⟩ | ⟨h1, h2⟩
        · simp [h1, h2, parseSelectors_boundary rest hbd]
        · have hsel := parseSelectors_map (selTags e) rest hbd
          obtain ⟨t0, ts0, hts0⟩ : ∃ t0 ts0, selTags e = t0 :: ts0 := by
            cases hses : selTags e with
            | nil => exact absurd hses h1
            | cons x y => exact ⟨x, y, rfl⟩
          rw [hts0] at hsel h2
          simp only [hts0, hsel, h2]
      have hchain : parseF g .chain (toksE e ++ rest) =
          .ok (.one (normE e), rest) := by
        rw [hg1]
        simp only [parseF]
        rw [hterm]
        exact chainRest_bd g1 (normE e) rest (by omega) hbd
      simp only [parseF]
      rw [hchain]
      exact exprRest_single g (normE e) rest (by omega) (startsTerm_boundary rest hbd)
    exact ⟨hprim, hargs, hexpr⟩

theorem parseF_toks_expr (e : Expr) (h : EWF e) (fuel : Nat) (rest : List Token)
    (hfuel : 8 * (toksE e).length + 6 ≤ fuel) (hbd : tokBoundary rest = true) :
    parseF fuel .expr (toksE e ++ rest) = .ok (.one (normE e), rest) :=
  (parseF_toks_bundle (sizeOf e)).2.2 e (Nat.le_refl _) h fuel rest hfuel hbd

theorem parseF_toks_stmt (e : Expr) (h : StmtWF e) (fuel : Nat)
    (rest : List Token) (hfuel : 8 * (toksE e).length + 8 ≤ fuel)
    (hbd : tokBoundary rest = true) :
    parseF fuel .stmt (toksE e ++ rest) = .ok (.one (normE e), rest) := by
  obtain ⟨g, rfl⟩ : ∃ g, fuel = g + 1 := ⟨fuel - 1, by omega⟩
  cases h with
  | assign nm v hn hv =>
    have hlen : (toksE (Expr.Assignment nm v)).length = (toksE v).length + 2 := by
      simp [toksE]
    rw [hlen] at hfuel
    have hE := parseF_toks_expr v hv g rest (by omega) hbd
    have hts : toksE (Expr.Assignment nm v) ++ rest =
        ⟨.TPackage, nm⟩ :: ⟨.TAssign, [':', '=']⟩ :: (toksE v ++ rest) := by
      simp [toksE]
    rw [hts]
    simp only [parseF]
    simp only [hE]
    simp [normE]
  | expr _ he =>
    have hE := parseF_toks_expr e he g rest (by omega) hbd
    obtain ⟨kd, txt, rest0, hhead, hkinds⟩ := toksE_head e he
    rcases hkinds with ⟨hkd, hr0⟩ | hkd | hkd
    · subst hkd
      rcases hr0 with h0 | ⟨t, r1, h0⟩
      · subst h0
        rw [hhead] at hE ⊢
        simp only [List.cons_append, List.nil_append] at hE ⊢
        cases rest with
        | nil =>
          simp only [parseF]
          exact hE
        | cons tk rts =>
          obtain ⟨k2, t2⟩ := tk
          cases k2 <;> first
            | (simp only [parseF]; exact hE)
            | simp [tokBoundary] at hbd
      · subst h0
        rw [hhead] at hE ⊢
        simp only [List.cons_append] at hE ⊢
        simp only [parseF]
        exact hE
    · subst hkd
      rw [hhead] at hE ⊢
      simp only [List.cons_append] at hE ⊢
      simp only [parseF]
      exact hE
    · subst hkd
      rw [hhead] at hE ⊢
      simp only [List.cons_append] at hE ⊢
      simp only [parseF]
      exact hE

theorem parseF_toks_prog : ∀ (ss : List Expr), ss ≠ [] → (∀ s ∈ ss, StmtWF s) →
    ∀ fuel : Nat, 8 * (toksStmts ss).length + 10 ≤ fuel →
    parseF fuel .prog (toksStmts ss) = .ok (.many (normArgs ss), []) := by
  intro ss
  induction ss with
  | nil => intro h; exact absurd rfl h
  | cons e es ih2 =>
    intro _ hall fuel hfuel
    obtain ⟨g, rfl⟩ : ∃ g, fuel = g + 1 := ⟨fuel - 1, by omega⟩
    have he := hall e (by simp)
    cases es with
    | nil =>
      have hst := parseF_toks_stmt e he g []
        (by simp only [toksStmts] at hfuel; omega) rfl
      simp only [List.append_nil] at hst
      show parseF (g + 1) .prog (toksStmts [e]) = _
      simp only [toksStmts]
      simp only [parseF]
      simp only [hst]
      simp [normArgs]
    | cons e2 es2 =>
      have hlen : (toksStmts (e :: e2 :: es2)).length =
          (toksE e).length + 1 + (toksStmts (e2 :: es2)).length := by
        simp [toksStmts]
        omega
      rw [hlen] at hfuel
      have hst := parseF_toks_stmt e he g (⟨.TSemicolon, [';']⟩ :: toksStmts (e2 :: es2))
        (by omega) rfl
      have htail := ih2 (by simp) (fun s hs => hall s (by simp [hs])) g (by omega)
      have hts : toksStmts (e :: e2 :: es2) =
          toksE e ++ (⟨.TSemicolon, [';']⟩ :: toksStmts (e2 :: es2)) := by
        simp [toksStmts]
      rw [hts]
      simp only [parseF]
      simp only [hst]
      simp only [htail]
      simp [normArgs]

theorem toksStmts_ne_nil (ss : List Expr) (hne : ss ≠ [])
    (hss : ∀ s ∈ ss, StmtWF s) : toksStmts ss ≠ [] := by
  cases ss with
  | nil => exact absurd rfl hne
  | cons e es =>
    have he := hss e (by simp)
    have hte : toksE e ≠ [] := by
      cases he with
      | expr _ h2 => exact toksE_ne_nil e h2
      | assign nm v hn hv => simp [toksE]
    cases es with
    | nil => simpa [toksStmts] using hte
    | cons e2 es2 =>
      simp [toksStmts]

theorem Parse_toks_single (e : Expr) (hs : StmtWF e) :
    Parse (toksE e) = .ok (some (normE e)) := by
  have hne : toksE e ≠ [] := by
    cases hs with
    | expr _ h2 => exact toksE_ne_nil e h2
    | assign nm v hn hv => simp [toksE]
  have hp2 : parseF (8 * (toksE e).length + 16) .prog (toksE e) =
      .ok (.many [normE e], []) := by
    have := parseF_toks_prog [e] (by simp)
      (by intro s hsm; simp at hsm; subst hsm; exact hs)
      (8 * (toksE e).length + 16) (by simp only [toksStmts]; omega)
    simpa [toksStmts, normArgs] using this
  cases hE : toksE e with
  | nil => exact absurd hE hne
  | cons t ts0 =>
    rw [hE] at hp2
    simp only [Parse]
    rw [show (8 * (t :: ts0).length + 16) = 8 * (t :: ts0).length + 16 from rfl]
    simp only [hp2]

theorem Parse_toks_top (e : Expr) (h : TopWF e) :
    Parse (toksE e) = .ok (some (normE e)) := by
  cases h with
  | single _ hs => exact Parse_toks_single e hs
  | program ss hlen2 hss =>
    have hne : ss ≠ [] := by
      cases ss with
      | nil => simp at hlen2
      | cons a b => simp
    have htne : toksStmts ss ≠ [] := toksStmts_ne_nil ss hne hss
    have hp2 : parseF (8 * (toksStmts ss).length + 16) .prog (toksStmts ss) =
        .ok (.many (normArgs ss), []) :=
      parseF_toks_prog ss hne hss _ (by omega)
    have hnl : (normArgs ss).length = ss.length := normArgs_length _
    obtain ⟨x, y, zs, hna⟩ : ∃ x y zs, normArgs ss = x :: y :: zs := by
      cases h1 : normArgs ss with
      | nil => rw [h1] at hnl; simp at hnl; omega
      | cons x t =>
        cases t with
        | nil => rw [h1] at hnl; simp at hnl; omega
        | cons y zs => exact ⟨x, y, zs, rfl⟩
    have hToks : toksE (Expr.Program ss) = toksStmts ss := by simp [toksE]
    rw [hToks]
    cases hE : toksStmts ss with
    | nil => exact absurd hE htne
    | cons t ts0 =>
      rw [hE] at hp2
      rw [hna] at hp2
      simp only [Parse]
      simp only [hp2]
      simp [normE, hna]

/-! ## Round-trip (C1): the tokenizer only produces well-formed token
texts. -/

theorem takeWhile_all (p : Char → Bool) : ∀ (l : List Char) (x : Char),
    x ∈ l.takeWhile p → p x = true := by
  intro l
  induction l with
  | nil => intro x hx; simp at hx
  | cons c cs ih =>
    intro x hx
    rw [List.takeWhile_cons] at hx
    by_cases hc : p c = true
    · rw [if_pos hc] at hx
      rcases List.mem_cons.mp hx with h | h
      · subst h; exact hc
      · exact ih x h
    · rw [if_neg hc] at hx
      simp at hx

theorem tok_wf : ∀ (n : Nat) (cs : List Char), cs.length ≤ n →
    ∀ tk ∈ tok cs, tokenWF tk = true := by
  intro n
  induction n with
  | zero =>
    intro cs h tk htk
    cases cs with
    | nil => simp [tok_nil] at htk
    | cons c cs0 => simp at h
  | succ n ih =>
    intro cs hlen tk htk
    cases cs with
    | nil => simp [tok_nil] at htk
    | cons c cs0 =>
      have hlen0 : cs0.length ≤ n := by simp at hlen; omega
      rw [tok_cons_eq] at htk
      by_cases h1 : isWS c = true
      · rw [if_pos h1] at htk
        exact ih cs0 hlen0 tk htk
      · rw [if_neg h1] at htk
        by_cases h2 : c = '('
        · rw [if_pos h2] at htk
          rcases List.mem_cons.mp htk with h | h
          · subst h; rfl
          · exact ih cs0 hlen0 tk h
        · rw [if_neg h2] at htk
          by_cases h3 : c = ')'
          · rw [if_pos h3] at htk
            rcases List.mem_cons.mp htk with h | h
            · subst h; rfl
            · exact ih cs0 hlen0 tk h
          · rw [if_neg h3] at htk
            by_cases h4 : c = ','
            · rw [if_pos h4] at htk
              rcases List.mem_cons.mp htk with h | h
              · subst h; rfl
              · exact ih cs0 hlen0 tk h
            · rw [if_neg h4] at htk
              by_cases h5 : c = ';'
              · rw [if_pos h5] at htk
                rcases List.mem_cons.mp htk with h | h
                · subst h; rfl
                · exact ih cs0 hlen0 tk h
              · rw [if_neg h5] at htk
                by_cases h6 : c = ':'
                · rw [if_pos h6] at htk
                  cases cs0 with
                  | nil =>
                    rcases List.mem_cons.mp htk with h | h
                    · subst h; rfl
                    · simp at h
                  | cons d rest2 =>
                    have hlen2 : rest2.length ≤ n - 1 := by simp at hlen; omega
                    replace htk : tk ∈
                        (if d = '=' then
                          (⟨.TAssign, [':', '=']⟩ : Token) :: tok rest2
                        else if d = '+' || d = '-' then
                          (⟨.TSelector, d :: rest2.takeWhile isWordChar⟩ : Token) ::
                            tok (rest2.dropWhile isWordChar)
                        else
                          (⟨.TSelector, (d :: rest2).takeWhile isWordChar⟩ : Token) ::
                            tok ((d :: rest2).dropWhile isWordChar)) := htk
                    by_cases h7 : d = '='
                    · rw [if_pos h7] at htk
                      rcases List.mem_cons.mp htk with h | h
                      · subst h; rfl
                      · exact ih rest2 (by omega) tk h
                    · rw [if_neg h7] at htk
                      by_cases h8 : (d = '+' || d = '-') = true
                      · rw [if_pos h8] at htk
                        rcases List.mem_cons.mp htk with h | h
                        · subst h
                          simp only [tokenWF, tagOKB, h8, if_true,
                            List.all_eq_true]
                          intro x hx
                          exact takeWhile_all isWordChar rest2 x hx
                        · refine ih (rest2.dropWhile isWordChar) ?_ tk h
                          have := len_dropW_le isWordChar rest2
                          omega
                      · rw [if_neg h8] at htk
                        rcases List.mem_cons.mp htk with h | h
                        · subst h
                          simp only [tokenWF]
                          cases hTW : (d :: rest2).takeWhile isWordChar with
                          | nil => rfl
                          | cons x t =>
                            have hxd : x = d := by
                              rw [List.takeWhile_cons] at hTW
                              by_cases hd : isWordChar d = true
                              · rw [if_pos hd] at hTW
                                exact (List.cons.injEq _ _ _ _ ▸ hTW).1.symm
                              · rw [if_neg hd] at hTW
                                simp at hTW
                            subst hxd
                            have hdw : isWordChar x = true := by
                              have : x ∈ (x :: rest2).takeWhile isWordChar := by
                                rw [hTW]; simp
                              exact takeWhile_all isWordChar (x :: rest2) x this
                            have hby : (x = '+' || x = '-') = false := by
                              simpa using h8
                            simp only [tagOKB, hby, Bool.false_eq_true, if_false,
                              Bool.and_eq_true, Bool.not_eq_true',
                              List.all_eq_true]
                            refine ⟨⟨?_, hdw⟩, ?_⟩
                            · simp [h7]
                            · intro y hy
                              refine takeWhile_all isWordChar (x :: rest2) y ?_
                              rw [hTW]
                              simp [hy]
                        · refine ih ((d :: rest2).dropWhile isWordChar) ?_ tk h
                          have := len_dropW_le isWordChar (d :: rest2)
                          simp only [List.length_cons] at this
                          simp at hlen
                          omega
                · rw [if_neg h6] at htk
                  by_cases h9 : (c = '+' || c = '-') = true
                  · rw [if_pos h9] at htk
                    by_cases h10 : cs0.head? = some '('
                    · rw [if_pos h10] at htk
                      rcases List.mem_cons.mp htk with h | h
                      · subst h
                        simp only [tokenWF]
                        rcases Bool.or_eq_true_iff.mp h9 with h | h <;>
                          simp only [decide_eq_true_eq] at h <;> simp [h]
                      · exact ih cs0 hlen0 tk h
                    · rw [if_neg h10] at htk
                      rcases List.mem_cons.mp htk with h | h
                      · subst h; rfl
                      · exact ih cs0 hlen0 tk h
                  · rw [if_neg h9] at htk
                    have hcw : isWordChar c = true := by
                      simp only [isWordChar, isBreakChar, isPunctChar,
                        Bool.not_eq_true']
                      have h1f : isWS c = false := Bool.eq_false_iff.mpr h1
                      simp [h1f, h2, h3, h4, h5, h6,
                        show ¬(c = '+') from by
                          intro h0; rw [h0] at h9; simp at h9]
                    have hcm : ¬(c = '-') := by
                      intro h0; rw [h0] at h9; simp at h9
                    have hwordOK : wordOKB (c :: cs0.takeWhile isWordChar) = true := by
                      simp only [wordOKB, Bool.and_eq_true, Bool.not_eq_true',
                        List.all_eq_true]
                      refine ⟨⟨by simp, ?_⟩, ?_⟩
                      · intro x hx
                        rcases List.mem_cons.mp hx with h | h
                        · subst h; exact hcw
                        · exact takeWhile_all isWordChar cs0 x h
                      · simp only [List.head?_cons]
                        simp [hcm]
                    have htail : ∀ tk ∈ tok (cs0.dropWhile isWordChar),
                        tokenWF tk = true := by
                      intro tk2 h2m
                      refine ih (cs0.dropWhile isWordChar) ?_ tk2 h2m
                      have := len_dropW_le isWordChar cs0
                      omega
                    by_cases h11 : (cs0.dropWhile isWordChar).head? = some '('
                    · rw [if_pos h11] at htk
                      rcases List.mem_cons.mp htk with h | h
                      · subst h
                        simp only [tokenWF, hwordOK, Bool.true_or]
                      · exact htail tk h
                    · rw [if_neg h11] at htk
                      rcases List.mem_cons.mp htk with h | h
                      · subst h
                        simp only [tokenWF, hwordOK]
                      · exact htail tk h

theorem Tokenize_wf (s : String) : ∀ tk ∈ Tokenize s, tokenWF tk = true := by
  intro tk htk
  exact tok_wf s.data.length s.data (Nat.le_refl _) tk htk

/-! ## Round-trip (C1): the parser only builds well-formed expressions
from well-formed tokens. -/

theorem parseSelectors_span2 : ∀ (ts : List Token) (tags : List (List Char))
    (rest : List Token), parseSelectors ts = (tags, rest) →
    ts = tags.map (fun t => (⟨.TSelector, t⟩ : Token)) ++ rest := by
  intro ts
  induction ts with
  | nil =>
    intro tags rest h
    simp only [parseSelectors, Prod.mk.injEq] at h
    simp [← h.1, ← h.2]
  | cons t ts0 ih =>
    intro tags rest h
    cases t with
    | mk k txt =>
      cases k
      case TSelector =>
        simp only [parseSelectors] at h
        cases hs : parseSelectors ts0 with
        | mk tags2 r2 =>
          rw [hs] at h
          simp only [Prod.mk.injEq] at h
          have := ih tags2 r2 hs
          rw [← h.1, ← h.2, this]
          simp
      all_goals
        simp only [parseSelectors, Prod.mk.injEq] at h
        simp [← h.1, ← h.2]

theorem parseF_wf : ∀ (fuel : Nat) (job : PJob) (ts : List Token)
    (r : PRes) (rest : List Token), jobPre job →
    (∀ tk ∈ ts, tokenWF tk = true) →
    parseF fuel job ts = .ok (r, rest) → jobOK job r := by
  intro fuel
  induction fuel with
  | zero =>
    intro job ts r rest hpre htok h
    simp [parseF] at h
  | succ fuel ih =>
    intro job ts r rest hpre htok h
    cases job with
    | prim =>
      simp only [parseF] at h
      split at h
      · rename_i w rest0
        simp only [Except.ok.injEq, Prod.mk.injEq] at h
        obtain ⟨rfl, rfl⟩ := h
        have hw := htok ⟨.TPackage, w⟩ (by simp)
        simp only [tokenWF] at hw
        exact EWF.pkg w hw
      · rename_i f t1 t2 rest0
        simp only [Except.ok.injEq, Prod.mk.injEq] at h
        obtain ⟨rfl, rfl⟩ := h
        have hf := htok ⟨.TFunc, f⟩ (by simp)
        simp only [tokenWF] at hf
        have hcn : callNameOK f = true := by
          simp only [callNameOK, Bool.or_eq_true_iff] at hf ⊢
          tauto
        have hfne : ¬(f = []) := by
          intro h0
          subst h0
          simp [wordOKB] at hf
        exact EWF.call f [] hcn (fun h0 => absurd h0 hfne) (by simp)
      · rename_i f t1 rest0 hneg
        split at h
        · rename_i as0 t2 rest2 heq
          simp only [Except.ok.injEq, Prod.mk.injEq] at h
          obtain ⟨rfl, rfl⟩ := h
          have htok0 : ∀ tk ∈ rest0, tokenWF tk = true :=
            fun tk htk => htok tk (by simp [htk])
          have hargs := ih .args rest0 _ _ trivial htok0 heq
          obtain ⟨hne0, hwf0⟩ := hargs
          have hf := htok ⟨.TFunc, f⟩ (by simp)
          simp only [tokenWF] at hf
          have hcn : callNameOK f = true := by
            simp only [callNameOK, Bool.or_eq_true_iff] at hf ⊢
            tauto
          have hfne : ¬(f = []) := by
            intro h0
            subst h0
            simp [wordOKB] at hf
          exact EWF.call f as0 hcn (fun h0 => absurd h0 hfne) hwf0
        · simp at h
        · simp at h
      · rename_i t1 rest0
        split at h
        · rename_i e0 t2 rest2 heq
          simp only [Except.ok.injEq, Prod.mk.injEq] at h
          obtain ⟨rfl, rfl⟩ := h
          have htok0 : ∀ tk ∈ rest0, tokenWF tk = true :=
            fun tk htk => htok tk (by simp [htk])
          have hargs := ih .args rest0 _ _ trivial htok0 heq
          exact hargs.2 e0 (by simp)
        · rename_i as0 t2 rest2 hneg2 heq
          simp only [Except.ok.injEq, Prod.mk.injEq] at h
          obtain ⟨rfl, rfl⟩ := h
          have htok0 : ∀ tk ∈ rest0, tokenWF tk = true :=
            fun tk htk => htok tk (by simp [htk])
          have hargs := ih .args rest0 _ _ trivial htok0 heq
          obtain ⟨hne0, hwf0⟩ := hargs
          refine EWF.call [] as0 (by simp [callNameOK]) (fun _ => ?_) hwf0
          cases as0 with
          | nil => exact absurd rfl hne0
          | cons x t =>
            cases t with
            | nil => exact absurd rfl (hneg2 x)
            | cons y zs => simp
        · simp at h
        · simp at h
      · simp at h
    | args =>
      simp only [parseF] at h
      split at h
      · rename_i e tc rest2 heq
        split at h
        · rename_i es rest3 heq2
          simp only [Except.ok.injEq, Prod.mk.injEq] at h
          obtain ⟨rfl, rfl⟩ := h
          have he : EWF e := ih .expr ts _ _ trivial htok heq
          obtain ⟨pre, hpre, _⟩ := parseF_consumed _ _ _ _ _ heq
          have htok2 : ∀ tk ∈ rest2, tokenWF tk = true := by
            intro tk htk
            refine htok tk ?_
            rw [hpre]
            simp [htk]
          have htail := ih .args rest2 _ _ trivial htok2 heq2
          refine ⟨by simp, ?_⟩
          intro a ha
          rcases List.mem_cons.mp ha with h0 | h0
          · subst h0; exact he
          · exact htail.2 a h0
        · simp at h
        · simp at h
      · rename_i e rest0 hneg heq
        simp only [Except.ok.injEq, Prod.mk.injEq] at h
        obtain ⟨rfl, rfl⟩ := h
        have he : EWF e := ih .expr ts _ _ trivial htok heq
        refine ⟨by simp, ?_⟩
        intro a ha
        simp at ha
        subst ha
        exact he
      · simp at h
      · simp at h
    | term =>
      simp only [parseF] at h
      split at h
      · rename_i base rest0 heq
        have hbase : EWF base := ih .prim ts _ _ trivial htok heq
        split at h
        · simp only [Except.ok.injEq, Prod.mk.injEq] at h
          obtain ⟨rfl, rfl⟩ := h
          exact hbase
        · rename_i tags rest2 hneg heq2
          simp only [Except.ok.injEq, Prod.mk.injEq] at h
          obtain ⟨rfl, rfl⟩ := h
          obtain ⟨pre, hpre, _⟩ := parseF_consumed _ _ _ _ _ heq
          have hsp := parseSelectors_span2 _ _ _ heq2
          refine EWF.sel base tags hbase (fun h0 => hneg h0) ?_
          intro t ht
          have hmem : (⟨.TSelector, t⟩ : Token) ∈ ts := by
            rw [hpre, hsp]
            simp only [List.mem_append, List.mem_map]
            exact Or.inr (Or.inl ⟨t, ht, rfl⟩)
          have := htok ⟨.TSelector, t⟩ hmem
          simpa [tokenWF] using this
      · simp at h
      · simp at h
    | chain =>
      simp only [parseF] at h
      split at h
      · rename_i e rest0 heq
        have he : EWF e := ih .term ts _ _ trivial htok heq
        obtain ⟨pre, hpre, _⟩ := parseF_consumed _ _ _ _ _ heq
        have htok0 : ∀ tk ∈ rest0, tokenWF tk = true := by
          intro tk htk
          refine htok tk ?_
          rw [hpre]
          simp [htk]
        have hres := ih (.chainRest e) rest0 r rest he htok0 h
        cases r with
        | one e2 => exact hres
        | many es => exact hres
      · simp at h
      · simp at h
    | chainRest acc =>
      simp only [parseF] at h
      split at h
      · rename_i c rest0
        split at h
        · rename_i hc
          split at h
          · rename_i e2 rest2 heq
            have htok0 : ∀ tk ∈ rest0, tokenWF tk = true :=
              fun tk htk => htok tk (by simp [htk])
            have he2 : EWF e2 := ih .term rest0 _ _ trivial htok0 heq
            obtain ⟨pre, hcons, _⟩ := parseF_consumed _ _ _ _ _ heq
            have htok2 : ∀ tk ∈ rest2, tokenWF tk = true := by
              intro tk htk
              refine htok0 tk ?_
              rw [hcons]
              simp [htk]
            have hop : c = '+' ∨ c = '-' := by
              rcases Bool.or_eq_true_iff.mp hc with h0 | h0 <;>
                simp only [decide_eq_true_eq] at h0
              · exact Or.inl h0
              · exact Or.inr h0
            have hres := ih (.chainRest (.BinaryOp c acc e2)) rest2 r rest
              (EWF.bin c acc e2 hop hpre he2) htok2 h
            cases r with
            | one e3 => exact hres
            | many es => exact hres
          · simp at h
          · simp at h
        · simp at h
      · simp at h
      · simp only [Except.ok.injEq, Prod.mk.injEq] at h
        obtain ⟨rfl, rfl⟩ := h
        exact hpre
    | expr =>
      simp only [parseF] at h
      split at h
      · rename_i e rest0 heq
        have he : EWF e := ih .chain ts _ _ trivial htok heq
        obtain ⟨pre, hcons, _⟩ := parseF_consumed _ _ _ _ _ heq
        have htok0 : ∀ tk ∈ rest0, tokenWF tk = true := by
          intro tk htk
          refine htok tk ?_
          rw [hcons]
          simp [htk]
        have hres := ih (.exprRest [e]) rest0 r rest
          ⟨by simp, by intro a ha; simp at ha; subst ha; exact he⟩ htok0 h
        cases r with
        | one e2 => exact hres
        | many es => exact hres
      · simp at h
      · simp at h
    | exprRest acc =>
      simp only [parseF] at h
      split at h
      · split at h
        · rename_i e rest0 heq
          have he : EWF e := ih .chain ts _ _ trivial htok heq
          obtain ⟨pre, hcons, _⟩ := parseF_consumed _ _ _ _ _ heq
          have htok0 : ∀ tk ∈ rest0, tokenWF tk = true := by
            intro tk htk
            refine htok tk ?_
            rw [hcons]
            simp [htk]
          have hres := ih (.exprRest (acc ++ [e])) rest0 r rest
            ⟨by simp, by
              intro a ha
              rcases List.mem_append.mp ha with h0 | h0
              · exact hpre.2 a h0
              · simp at h0; subst h0; exact he⟩ htok0 h
          cases r with
          | one e2 => exact hres
          | many es => exact hres
        · simp at h
        · simp at h
      · split at h
        · rename_i e0
          simp only [Except.ok.injEq, Prod.mk.injEq] at h
          obtain ⟨rfl, rfl⟩ := h
          exact hpre.2 e0 (by simp)
        · rename_i hneg3
          simp only [Except.ok.injEq, Prod.mk.injEq] at h
          obtain ⟨rfl, rfl⟩ := h
          refine EWF.call [] acc (by simp [callNameOK]) (fun _ => ?_) hpre.2
          cases hacc : acc with
          | nil => exact absurd hacc hpre.1
          | cons x t =>
            cases t with
            | nil => exact absurd hacc (by intro h0; exact hneg3 x h0)
            | cons y zs => simp
    | stmt =>
      simp only [parseF] at h
      split at h
      · rename_i nm t1 rest0
        split at h
        · rename_i v rest2 heq
          simp only [Except.ok.injEq, Prod.mk.injEq] at h
          obtain ⟨rfl, rfl⟩ := h
          have htok0 : ∀ tk ∈ rest0, tokenWF tk = true :=
            fun tk htk => htok tk (by simp [htk])
          have hv : EWF v := ih .expr rest0 _ _ trivial htok0 heq
          have hn := htok ⟨.TPackage, nm⟩ (by simp)
          simp only [tokenWF] at hn
          exact StmtWF.assign nm v hn hv
        · simp at h
        · simp at h
      · have hres := ih .expr ts r rest trivial htok h
        cases r with
        | one e => exact StmtWF.expr e hres
        | many es => exact hres
    | prog =>
      simp only [parseF] at h
      split at h
      · rename_i s tc rest2 heq
        split at h
        · rename_i ss rest3 heq2
          simp only [Except.ok.injEq, Prod.mk.injEq] at h
          obtain ⟨rfl, rfl⟩ := h
          have hs : StmtWF s := by
            have := ih .stmt ts _ _ trivial htok heq
            exact this
          obtain ⟨pre, hpre, _⟩ := parseF_consumed _ _ _ _ _ heq
          have htok2 : ∀ tk ∈ rest2, tokenWF tk = true := by
            intro tk htk
            refine htok tk ?_
            rw [hpre]
            simp [htk]
          have htail := ih .prog rest2 _ _ trivial htok2 heq2
          refine ⟨by simp, ?_⟩
          intro x hx
          rcases List.mem_cons.mp hx with h0 | h0
          · subst h0; exact hs
          · exact htail.2 x h0
        · simp at h
        · simp at h
      · rename_i s rest0 hneg heq
        simp only [Except.ok.injEq, Prod.mk.injEq] at h
        obtain ⟨rfl, rfl⟩ := h
        have hs : StmtWF s := ih .stmt ts _ _ trivial htok heq
        refine ⟨by simp, ?_⟩
        intro x hx
        simp at hx
        subst hx
        exact hs
      · simp at h
      · simp at h

theorem Parse_output_wf (ts : List Token) (e : Expr)
    (htok : ∀ tk ∈ ts, tokenWF tk = true)
    (h : Parse ts = .ok (some e)) : TopWF e := by
  cases ts with
  | nil => simp [Parse] at h
  | cons t ts0 =>
    simp only [Parse] at h
    split at h
    · rename_i e0 heq
      simp only [Except.ok.injEq, Option.some.injEq] at h
      subst h
      have hwf := parseF_wf _ .prog (t :: ts0) _ _ trivial htok heq
      exact TopWF.single e0 (hwf.2 e0 (by simp))
    · rename_i ss hne2 heq
      simp only [Except.ok.injEq, Option.some.injEq] at h
      subst h
      have hwf := parseF_wf _ .prog (t :: ts0) _ _ trivial htok heq
      refine TopWF.program ss ?_ hwf.2
      cases hss : ss with
      | nil => exact absurd hss hwf.1
      | cons x tl =>
        cases tl with
        | nil => exact absurd hss (by intro h0; exact hne2 x h0)
        | cons y zs => simp
    · simp at h
    · simp at h
    · simp at h

/-- C1: round-trip idempotence of the canonical form.  For every
expression the parser accepts from some tokenized input, printing it,
tokenizing the canonical string and parsing those tokens succeeds and
yields an expression whose canonical rendering is the identical
string. -/
theorem c1_roundtrip (s : String) (e : Expr)
    (h : Parse (Tokenize s) = .ok (some e)) :
    ∃ e2 : Expr, Parse (Tokenize (Print e)) = .ok (some e2) ∧
      Print e2 = Print e := by
  have hwf : TopWF e := Parse_output_wf (Tokenize s) e (Tokenize_wf s) h
  refine ⟨normE e, ?_, ?_⟩
  · have h1 : Tokenize (Print e) = toksE e := tok_printE_top e hwf
    rw [h1]
    exact Parse_toks_top e hwf
  · show String.mk (printE (normE e)) = String.mk (printE e)
    rw [printE_normE]

/-- C1 witness: the round-trip theorem applied to the corpus input
`"std - (std - unsafe:all)"`, whose parse is the right-nested
difference. -/
theorem c1_roundtrip_witness :
    Parse (Tokenize "std - (std - unsafe:all)") =
      .ok (some (.BinaryOp '-' (.PackageRef "std".data)
        (.BinaryOp '-' (.PackageRef "std".data)
          (.Selected (.PackageRef "unsafe".data) ["all".data])))) ∧
    ∃ e2 : Expr,
      Parse (Tokenize (Print (.BinaryOp '-' (.PackageRef "std".data)
        (.BinaryOp '-' (.PackageRef "std".data)
          (.Selected (.PackageRef "unsafe".data) ["all".data]))))) =
        .ok (some e2) ∧
      Print e2 = Print (.BinaryOp '-' (.PackageRef "std".data)
        (.BinaryOp '-' (.PackageRef "std".data)
          (.Selected (.PackageRef "unsafe".data) ["all".data]))) :=
  ⟨by rfl, c1_roundtrip "std - (std - unsafe:all)" _ (by rfl)⟩

end Goda
